import Mathlib

/-!
Verification development for the GIKI crawler (`giki_selenium.py`).

The crawler's pure logic is embedded shallowly:
* `normalize_url`, `same_domain`, `content_hash` are translated from the
  helper functions at the top of the file, together with a model of the
  `urllib.parse` routines they call (`urlsplit`, `urlparse`, `urlunparse`,
  `parse_qsl`, `urlencode` and the string methods `rstrip`, `lower`,
  `strip`, `split`).
* Percent-encoding (`quote_plus` / `unquote_plus`, used inside `urlencode`
  and `parse_qsl`) is an external library routine and is abstracted as a
  `Codec` parameter; the properties the proofs need from it are stated in
  `CodecOK` and a concrete executable instance `toyCodec` satisfying them
  is provided for witnesses.
* Network fetches, Selenium rendering, BeautifulSoup parsing, the robots
  policy answer and the sha256 digest are external effects and are
  abstracted as fields of an `Env` record.  Everything the crawl loop does
  with their answers (the branch structure of `GIKIScraper.crawl`,
  `fetch_via_requests`, `fetch_via_selenium`, `extract_content`,
  `extract_links`, `save_page`, `save_aggregate`, `main`) is embedded
  faithfully, with ghost `trace` / `candidates` / `progress` fields
  recording the events the claims talk about.
-/

/-! ### Generic character-list helpers (Python string primitives) -/

/-- Python `s.split(sep, 1)` viewed on char lists: split at the first
occurrence of `sep`, returning the parts before and after it, or `none`
when `sep` does not occur. -/
def splitFirst (sep : Char) : List Char → Option (List Char × List Char)
  | [] => none
  | c :: cs =>
    if c = sep then some ([], cs)
    else (splitFirst sep cs).map (fun p => (c :: p.1, p.2))

/-- Python `s.split(sep)` on char lists (`''.split(sep) == ['']`). -/
def splitAll (sep : Char) : List Char → List (List Char)
  | [] => [[]]
  | c :: cs =>
    if c = sep then [] :: splitAll sep cs
    else
      match splitAll sep cs with
      | [] => [[c]]
      | h :: t => (c :: h) :: t

/-- Python `s.rstrip("/")`: drop every trailing `'/'`. -/
def rstripSlash (l : List Char) : List Char :=
  (l.reverse.dropWhile (· = '/')).reverse

/-- ASCII lower-casing of one character (Python `str.lower` restricted to
the ASCII range, which covers everything the crawler compares). -/
def lowerC (c : Char) : Char :=
  if 'A' ≤ c ∧ c ≤ 'Z' then Char.ofNat (c.toNat + 32) else c

/-- ASCII lower-casing of a char list. -/
def lowerL (l : List Char) : List Char := l.map lowerC

/-- Python whitespace test (the ASCII part of `\s`, `str.split()`,
`str.strip()`). -/
def pyIsSpace (c : Char) : Bool :=
  c = ' ' || c = '\t' || c = '\n' || c = '\r' || c = '\x0b' || c = '\x0c'

/-- Python `s.strip()`: drop leading and trailing whitespace. -/
def pyStrip (l : List Char) : List Char :=
  ((l.dropWhile pyIsSpace).reverse.dropWhile pyIsSpace).reverse

/-- Python `s.split()` (split on whitespace runs, no empty fields);
used for `len(content_text.split())`, i.e. the word count. -/
def pyWords : List Char → List (List Char)
  | [] => []
  | c :: cs =>
    if pyIsSpace c then pyWords cs
    else
      match pyWords cs with
      | [] => [[c]]
      | h :: t =>
        match cs with
        | [] => [[c]]
        | c2 :: _ => if pyIsSpace c2 then [c] :: h :: t else (c :: h) :: t

/-- Substring test, Python `needle in hay`. -/
def subIn (needle hay : List Char) : Bool :=
  match hay with
  | [] => needle.isPrefixOf ([] : List Char)
  | _ :: t => needle.isPrefixOf hay || subIn needle t

/-- Substring test on strings (Python `tok in s`). -/
def strIn (needle hay : String) : Bool := subIn needle.toList hay.toList

/-! ### Model of `urllib.parse` (CPython), as far as the crawler uses it.

`_UNSAFE_URL_BYTES_TO_REMOVE` stripping and the deep validation of a
bracketed IPv6 host are omitted; the bracket-mismatch `ValueError` of
`urlsplit` is kept, since it is the one exception `normalize_url`'s
`try/except` can realistically see. -/

/-- Characters allowed in a URL scheme after the initial letter
(CPython `scheme_chars`). -/
def schemeChar (c : Char) : Bool :=
  ('a' ≤ c && c ≤ 'z') || ('A' ≤ c && c ≤ 'Z') || ('0' ≤ c && c ≤ '9') ||
    c = '+' || c = '-' || c = '.'

/-- ASCII letter test (CPython `url[0].isascii() and url[0].isalpha()`). -/
def asciiAlpha (c : Char) : Bool :=
  ('a' ≤ c && c ≤ 'z') || ('A' ≤ c && c ≤ 'Z')

/-- Result of `urlsplit`: scheme, netloc, path, query, fragment. -/
structure SplitRes where
  scheme : List Char
  netloc : List Char
  path : List Char
  query : List Char
  fragment : List Char
deriving DecidableEq, Repr

/-- Result of `urlparse`: `urlsplit` plus the params component split from
the last path segment. -/
structure ParseRes where
  scheme : List Char
  netloc : List Char
  path : List Char
  params : List Char
  query : List Char
  fragment : List Char
deriving DecidableEq, Repr

/-- CPython `urllib.parse._splitnetloc`: everything from just after `//`
up to the first `/`, `?` or `#`. -/
def splitnetloc (l : List Char) : List Char × List Char :=
  (l.takeWhile (fun c => ¬(c = '/' || c = '?' || c = '#')),
   l.dropWhile (fun c => ¬(c = '/' || c = '?' || c = '#')))

/-- Scheme recognition step of CPython `urlsplit`: if the text before the
first `:` is a nonempty ASCII-letter-initial run of scheme characters, it
is the (lower-cased) scheme; otherwise no scheme is split off. -/
def schemeSplit (u : List Char) : List Char × List Char :=
  match splitFirst ':' u with
  | none => ([], u)
  | some (pre, post) =>
    match pre with
    | [] => ([], u)
    | c :: cs =>
      if asciiAlpha c && cs.all schemeChar then (lowerL (c :: cs), post)
      else ([], u)

/-- CPython `urllib.parse.urlsplit` (fragment splitting allowed, default
scheme empty).  The `.error` case models the `ValueError` raised on a
netloc with mismatched square brackets. -/
def pyUrlsplit (u : List Char) : Except Unit SplitRes :=
  let (scheme, rest) := schemeSplit u
  let (netloc, rest) :=
    if rest.take 2 = ['/', '/'] then splitnetloc (rest.drop 2) else ([], rest)
  if ('[' ∈ netloc && ']' ∉ netloc) || (']' ∈ netloc && '[' ∉ netloc) then
    .error ()
  else
    let (rest, fragment) :=
      match splitFirst '#' rest with
      | some (a, b) => (a, b)
      | none => (rest, [])
    let (rest, query) :=
      match splitFirst '?' rest with
      | some (a, b) => (a, b)
      | none => (rest, [])
    .ok ⟨scheme, netloc, rest, query, fragment⟩

/-- Schemes for which CPython `urlparse` splits path parameters
(`uses_params`). -/
def usesParams : List (List Char) :=
  [[], "ftp".toList, "hdl".toList, "prospero".toList, "http".toList,
   "imap".toList, "https".toList, "shttp".toList, "rtsp".toList,
   "rtspu".toList, "sip".toList, "sips".toList, "mms".toList,
   "sftp".toList, "tel".toList]

/-- CPython `urllib.parse._splitparams`: split at the first `;` occurring
in the last path segment (i.e. at or after the last `/`). -/
def splitparams (p : List Char) : List Char × List Char :=
  match splitFirst '/' p.reverse with
  | none =>
    match splitFirst ';' p with
    | some (a, b) => (a, b)
    | none => (p, [])
  | some (rseg, rpre) =>
    match splitFirst ';' rseg.reverse with
    | some (a, b) => (rpre.reverse ++ '/' :: a, b)
    | none => (p, [])

/-- CPython `urllib.parse.urlparse`. -/
def pyUrlparse (u : List Char) : Except Unit ParseRes :=
  match pyUrlsplit u with
  | .error e => .error e
  | .ok r =>
    let (path, params) :=
      if r.scheme ∈ usesParams && ';' ∈ r.path then splitparams r.path
      else (r.path, [])
    .ok ⟨r.scheme, r.netloc, path, params, r.query, r.fragment⟩

/-- CPython `urllib.parse.urlunsplit`. -/
def pyUrlunsplit (scheme netloc url query fragment : List Char) : List Char :=
  let url :=
    if netloc ≠ [] || url.take 2 = ['/', '/'] then
      '/' :: '/' :: netloc ++
        (if url ≠ [] && url.head? ≠ some '/' then '/' :: url else url)
    else url
  let url := if scheme ≠ [] then scheme ++ ':' :: url else url
  let url := if query ≠ [] then url ++ '?' :: query else url
  if fragment ≠ [] then url ++ '#' :: fragment else url

/-- CPython `urllib.parse.urlunparse`. -/
def pyUrlunparse (scheme netloc path params query fragment : List Char) :
    List Char :=
  pyUrlunsplit scheme netloc
    (if params ≠ [] then path ++ ';' :: params else path) query fragment

/-- Abstraction of the percent-codec used inside `urlencode` and
`parse_qsl`: `quote` models `quote_plus` and `unquote` models
`unquote(s.replace('+', ' '))`, i.e. `unquote_plus`. -/
structure Codec where
  quote : List Char → List Char
  unquote : List Char → List Char

/-- CPython `urllib.parse.parse_qsl(qs, keep_blank_values=True)`:
split the query on `&`, skip empty fields, split each field at its first
`=` (a field with no `=` gets an empty value), and decode names and
values with `unquote_plus`. -/
def parse_qsl (cd : Codec) (qs : List Char) : List (List Char × List Char) :=
  (splitAll '&' qs).filterMap fun f =>
    if f = [] then none
    else
      match splitFirst '=' f with
      | some (n, v) => some (cd.unquote n, cd.unquote v)
      | none => some (cd.unquote f, [])

/-- CPython `urllib.parse.urlencode` on string pairs (with `doseq=True`
and string values this is `quote_plus(k) + '=' + quote_plus(v)` joined by
`&`). -/
def urlencode (cd : Codec) (l : List (List Char × List Char)) : List Char :=
  match l with
  | [] => []
  | [kv] => cd.quote kv.1 ++ '=' :: cd.quote kv.2
  | kv :: rest => cd.quote kv.1 ++ '=' :: cd.quote kv.2 ++ '&' :: urlencode cd rest

/-! ### The crawler's helper functions (`giki_selenium.py`, lines 50-74) -/

/-- Tracking-parameter block-list test from `normalize_url`:
`k.lower().startswith("utm_") or k.lower() in ("fbclid","gclid","trk")`. -/
def isTrackingKey (k : List Char) : Bool :=
  "utm_".toList.isPrefixOf (lowerL k) ||
    lowerL k = "fbclid".toList || lowerL k = "gclid".toList ||
    lowerL k = "trk".toList

/-- `normalize_url` from `giki_selenium.py` (lines 50-63): parse, default
a missing scheme to `https`, drop the fragment, strip tracking query
parameters and re-encode the rest, collapse trailing slashes in the path
(root stays `/`), and re-assemble; any parse error returns the input
unchanged. -/
def normalize_url (cd : Codec) (u : String) : String :=
  match pyUrlparse u.toList with
  | .error _ => u
  | .ok r =>
    let scheme := if r.scheme = [] then "https".toList else r.scheme
    let qs := (parse_qsl cd r.query).filter (fun kv => ¬ isTrackingKey kv.1)
    let newQ := urlencode cd qs
    let path := if rstripSlash r.path = [] then ['/'] else rstripSlash r.path
    String.mk (pyUrlunparse scheme r.netloc path r.params newQ [])

/-- `same_domain` from `giki_selenium.py` (lines 65-71): compare
lower-cased netlocs, accepting subdomains; any parse error gives `false`. -/
def same_domain (url base : String) : Bool :=
  match pyUrlsplit url.toList, pyUrlsplit base.toList with
  | .ok pu, .ok pb =>
    let p := lowerL pu.netloc
    let b := lowerL pb.netloc
    p = b || List.isSuffixOf ('.' :: b) p
  | _, _ => false

/-- `content_hash` from `giki_selenium.py` (lines 73-74):
`hashlib.sha256(text.encode()).hexdigest()[:16]`.  The sha256 hex digest
itself is the abstract `digest` parameter; the truncation to 16
characters is kept. -/
def content_hash (digest : String → String) (text : String) : String :=
  (digest text).take 16

/-! ### Data model and environment -/

/-- `PageRecord` dataclass (lines 77-86). -/
structure PageRecord where
  url : String
  title : String
  description : String
  content : String
  word_count : Nat
deriving DecidableEq, Repr

/-- Observable events of one crawl run (ghost instrumentation):
`pop u` is a dequeue (after re-normalization, line 251-252), `denied u`
is the robots-refusal branch (line 257), `netGet u` is an actual
`session.get` (line 154), `selCall u` is an invocation of
`fetch_via_selenium` from the crawl loop (line 268), and `navGet u` is an
actual `driver.get` (line 173). -/
inductive Ev where
  | pop (u : String)
  | denied (u : String)
  | netGet (u : String)
  | selCall (u : String)
  | navGet (u : String)
deriving DecidableEq, Repr

/-- Mutable state of one `GIKIScraper` run: `visited`, `to_visit`,
`records`, `seen_hashes` (lines 93-96), plus the per-page files written by
`save_page` (`saved`), the tqdm progress counter (`progress`), the ghost
event trace, and the ghost list `candidates` of records that passed the
`word_count >= 30` gate and entered dedup (line 279). -/
structure CState where
  visited : List String
  toVisit : List String
  records : List PageRecord
  seenHashes : List String
  saved : List PageRecord
  candidates : List PageRecord
  progress : Nat
  trace : List Ev
deriving DecidableEq, Repr

/-- External collaborators of the crawler plus its configuration.
`canFetch` is the robots answer (`rp.can_fetch`, with its `try/except`
already folded to a total Bool as in `GIKIScraper.can_fetch`);
`netGet` is `session.get` (`none` for status >= 400 or a network error);
`navGet` is `driver.get` + scroll + `page_source` (`none` on error);
`extractMain` is the BeautifulSoup part of `extract_content` (title,
meta description, raw main-region text; `none` models an exception);
`anchors` is `soup.find_all("a", href=True)` (the href attributes);
`urljoin` is `urllib.parse.urljoin`; `digest` is
`hashlib.sha256(. .encode()).hexdigest()`. -/
structure Env where
  codec : Codec
  base_url : String
  canFetch : String → Bool
  netGet : String → Option String
  navGet : String → Option String
  driverReady : Bool
  useRenderer : Bool
  extractMain : String → Option (String × String × String)
  anchors : String → List String
  urljoin : String → String → String
  digest : String → String

/-- `self.base_url = base_url.rstrip("/")` (line 91). -/
def baseOf (env : Env) : String := String.mk (rstripSlash env.base_url.toList)

/-- Initial scraper state (`__init__`, lines 93-96 and 114): empty sets
and the single seed `normalize_url(self.base_url + "/events/")`. -/
def initSt (env : Env) : CState :=
  { visited := [], toVisit := [normalize_url env.codec (baseOf env ++ "/events/")],
    records := [], seenHashes := [], saved := [], candidates := [],
    progress := 0, trace := [] }

/-! ### Fetch strategy (lines 149-180 and 264-270) -/

/-- `fetch_via_requests` (lines 149-164): refuse robots-blocked URLs
without touching the network; otherwise the network answer stands (the
encoding fix-up does not change whether/what text is returned).  Also
returns the fetch events performed. -/
def fetch_via_requests (env : Env) (url : String) : Option String × List Ev :=
  if ¬ env.canFetch url then (none, [])
  else (env.netGet url, [Ev.netGet url])

/-- `fetch_via_selenium` (lines 166-180): `none` without a ready driver,
`none` for robots-blocked URLs, otherwise the rendered page source. -/
def fetch_via_selenium (env : Env) (url : String) : Option String × List Ev :=
  if ¬ env.driverReady then (none, [])
  else if ¬ env.canFetch url then (none, [])
  else (env.navGet url, [Ev.navGet url])

/-- Python truthiness of the fetched HTML (`not html`): `None` or the
empty string. -/
def pyFalsy : Option String → Bool
  | none => true
  | some s => s = ""

/-- The fixed dynamic-content marker tokens of line 266. -/
def dynMarkers : List String := ["load more", "admin-ajax", "wp-json", "infinite"]

/-- Escalation heuristic of line 266 (without the `and USE_RENDERER`
conjunct): `not html or len(html) < 800 or any(tok in (html or "").lower()
for tok in [...])`. -/
def needsRender (h : Option String) : Bool :=
  match h with
  | none => true
  | some s =>
    s = "" || s.length < 800 ||
      dynMarkers.any (fun tok => subIn tok.toList (lowerL s.toList))

/-- Lines 264-270 of the crawl loop: plain fetch first; escalate to the
rendered fetch exactly when the heuristic fires and rendering is enabled;
a truthy rendered result replaces the plain one, otherwise the plain
result stands.  Returns the resulting HTML and the fetch events. -/
def fetchHtml (env : Env) (url : String) : Option String × List Ev :=
  let (html, e1) := fetch_via_requests env url
  if needsRender html && env.useRenderer then
    let (sh, e2) := fetch_via_selenium env url
    match sh with
    | some s => if s ≠ "" then (some s, e1 ++ Ev.selCall url :: e2)
                else (html, e1 ++ Ev.selCall url :: e2)
    | none => (html, e1 ++ Ev.selCall url :: e2)
  else (html, e1)

/-! ### Content extraction (lines 195-220) -/

/-- `re.sub(r"\s+", " ", s).strip()` from line 207: collapse whitespace
runs to single spaces and trim.  Equivalently, join the words with single
spaces. -/
def normWs (s : String) : String :=
  String.mk (List.intercalate [' '] (pyWords s.toList))

/-- Number of words, `len(content_text.split())` (line 216). -/
def wordCount (s : String) : Nat := (pyWords s.toList).length

/-- `extract_content` (lines 195-220): the soup part is `env.extractMain`;
the embedded part is the whitespace normalization, the emptiness check and
the `PageRecord` construction with its derived word count. -/
def extract_content (env : Env) (html url : String) : Option PageRecord :=
  match env.extractMain html with
  | none => none
  | some (title, description, raw) =>
    let content := normWs raw
    if content = "" then none
    else some ⟨url, title, description, content, wordCount content⟩

/-! ### Link extraction (lines 222-236) and enqueueing (lines 286-291) -/

/-- Python `href.split("#")[0]`. -/
def beforeHash (l : List Char) : List Char := l.takeWhile (· ≠ '#')

/-- Skip test of line 227: `href.startswith(("mailto:", "tel:",
"javascript:"))`. -/
def isSkippedScheme (href : List Char) : Bool :=
  "mailto:".toList.isPrefixOf href || "tel:".toList.isPrefixOf href ||
    "javascript:".toList.isPrefixOf href

/-- `extract_links` (lines 222-236): strip each href, skip
non-navigational schemes, resolve against the page URL, cut the fragment,
normalize; then keep, in order, the first occurrence of each link whose
domain matches the crawl's base domain. -/
def extract_links (env : Env) (html base_url : String) : List String :=
  let links := (env.anchors html).filterMap fun a =>
    let href := pyStrip a.toList
    if isSkippedScheme href then none
    else some (normalize_url env.codec
      (env.urljoin base_url (String.mk (beforeHash href))))
  links.foldl
    (fun uniq l =>
      if l ∉ uniq ∧ same_domain l (baseOf env) then uniq ++ [l] else uniq)
    []

/-- Non-content URL pattern test of line 289:
`any(x in l.lower() for x in ["/wp-admin", "/wp-content/", "/feed", "/?s="])`. -/
def badPattern (l : String) : Bool :=
  ["/wp-admin", "/wp-content/", "/feed", "/?s="].any
    (fun x => subIn x.toList (lowerL l.toList))

/-- Enqueue loop of lines 287-291: append each link that is in neither
`visited` nor the (growing) `to_visit` and does not match a non-content
pattern. -/
def enqueueLinks (visited : List String) (toVisit : List String)
    (links : List String) : List String :=
  links.foldl
    (fun tv l =>
      if l ∈ visited ∨ l ∈ tv then tv
      else if badPattern l then tv
      else tv ++ [l])
    toVisit

/-! ### The crawl loop (lines 247-297) -/

/-- Dequeue bookkeeping: `url = to_visit.pop(0)` then
`url = normalize_url(url)` (lines 251-252), with the pop traced. -/
def afterPop (st : CState) (url : String) (rest : List String) : CState :=
  { st with toVisit := rest, trace := st.trace ++ [Ev.pop url] }

/-- Robots-refusal branch (lines 257-261): mark visited, advance the
progress bar, continue. -/
def deniedStep (st : CState) (url : String) : CState :=
  { st with
      visited := st.visited ++ [url], progress := st.progress + 1,
      trace := st.trace ++ [Ev.denied url] }

/-- Lines 278-293: extraction, the `word_count >= 30` gate, content-hash
dedup, persistence, link extraction and enqueueing, and the end-of-
iteration progress tick. -/
def processFetched (env : Env) (st : CState) (url html : String) : CState :=
  let st1 :=
    match extract_content env html url with
    | none => st
    | some pr =>
      if 30 ≤ pr.word_count then
        let stc := { st with candidates := st.candidates ++ [pr] }
        let h := content_hash env.digest pr.content
        if h ∈ stc.seenHashes then stc
        else
          let sta := { stc with
            seenHashes := stc.seenHashes ++ [h],
            records := stc.records ++ [pr], saved := stc.saved ++ [pr] }
          { sta with
            toVisit := enqueueLinks sta.visited sta.toVisit
              (extract_links env html url) }
      else st
  { st1 with progress := st1.progress + 1 }

/-- One iteration of the `while` body of `GIKIScraper.crawl`
(lines 250-294).  On an empty frontier it is the identity (the loop guard
prevents that call). -/
def crawlIter (env : Env) (st : CState) : CState :=
  match st.toVisit with
  | [] => st
  | u :: rest =>
    let url := normalize_url env.codec u
    let st1 := afterPop st url rest
    if url ∈ st1.visited then st1
    else if ¬ same_domain url (baseOf env) then st1
    else if ¬ env.canFetch url then deniedStep st1 url
    else
      let st2 := { st1 with visited := st1.visited ++ [url] }
      let fr := fetchHtml env url
      let st3 := { st2 with trace := st2.trace ++ fr.2 }
      if pyFalsy fr.1 then { st3 with progress := st3.progress + 1 }
      else processFetched env st3 url (fr.1.getD "")

/-- The `while` loop of `GIKIScraper.crawl` (line 250): iterate while the
frontier is nonempty and the visited budget is not exhausted.  Termination
is by the lexicographic measure (remaining budget, frontier length): an
iteration either only pops (when the URL is already visited or
off-domain) or marks exactly one new URL visited. -/
def crawl (env : Env) (m : Nat) (st : CState) : CState :=
  if h : st.toVisit ≠ [] ∧ st.visited.length < m then crawl env m (crawlIter env st)
  else st
termination_by (m - st.visited.length, st.toVisit.length)
decreasing_by
  have hpf : ∀ (e : Env) (s : CState) (uu hh : String),
      (processFetched e s uu hh).visited = s.visited := by
    intro e s uu hh
    simp only [processFetched]
    cases extract_content e hh uu with
    | none => rfl
    | some pr => dsimp only; split_ifs <;> rfl
  have key : ((crawlIter env st).visited = st.visited ∧
      (crawlIter env st).toVisit.length < st.toVisit.length) ∨
      (crawlIter env st).visited.length = st.visited.length + 1 := by
    rcases htv : st.toVisit with _ | ⟨u, rest⟩
    · exact absurd htv h.1
    · simp only [crawlIter, htv]
      split_ifs
      all_goals first
      | (left; refine ⟨rfl, ?_⟩; simp [afterPop]; done)
      | (right; simp [deniedStep, afterPop]; done)
      | (right; rw [hpf]; simp [afterPop]; done)
      | (right; simp [afterPop]; done)
  rcases key with ⟨hv, htv2⟩ | hv
  · rw [hv]; exact Prod.Lex.right _ htv2
  · exact Prod.Lex.left _ _ (by omega)

/-! ### Persistence and entry point (lines 299-337) -/

/-- `save_aggregate` (lines 299-314): with no records it logs a warning
and returns without writing anything; otherwise it writes the aggregate
JSON array of all records.  The returned value is the content of the
aggregate file, `none` when no file is written. -/
def save_aggregate (records : List PageRecord) : Option (List PageRecord) :=
  if records = [] then none else some records

/-- How the call to `GIKIScraper.crawl` inside `main` ends: normally,
by `KeyboardInterrupt`, or by an unhandled exception; each case carries
the scraper state at that moment (the scraper object outlives the
exception). -/
inductive CrawlOutcome where
  | ok (st : CState)
  | interrupted (st : CState)
  | failed (st : CState)
deriving DecidableEq

/-- Result of `main`: the aggregate writes performed (one entry per
`save_aggregate` call, in order) and whether the exception was re-raised
(non-zero exit). -/
structure MainRes where
  aggWrites : List (Option (List PageRecord))
  reraised : Bool
deriving DecidableEq

/-- `main` (lines 324-337): `save_aggregate` runs on the normal path, on
`KeyboardInterrupt` (swallowed) and on any other exception (re-raised
after the flush). -/
def runMain : CrawlOutcome → MainRes
  | .ok st => ⟨[save_aggregate st.records], false⟩
  | .interrupted st => ⟨[save_aggregate st.records], false⟩
  | .failed st => ⟨[save_aggregate st.records], true⟩

/-! ### Specification-side helper for the dedup claim -/

/-- Keep the first occurrence of each key, in order: the list of records
that survive a first-wins dedup on `key`.  (This is the spec-side
description of what `seen_hashes` achieves; the dedup theorem proves the
crawl's `records` equal to it.) -/
def keepFirstBy (key : PageRecord → String) (l : List PageRecord) :
    List PageRecord :=
  l.foldl (fun acc r => if key r ∈ acc.map key then acc else acc ++ [r]) []

/-! ### A concrete executable percent-codec for witnesses.

The real `quote_plus` / `unquote_plus` percent-encode using UTF-8 and
hex; for the proofs only two facts matter (`CodecOK` below): decoding
inverts encoding, and encoded text contains none of the separator
characters `& = # ?`.  `toyCodec` realizes them with a small escape
table and is used to instantiate witnesses. -/

/-- Encode one character: space becomes `+`; the separator characters and
the escape characters themselves become `%XX`; everything else is kept. -/
def toyQuoteChar (c : Char) : List Char :=
  if c = ' ' then ['+']
  else if c = '&' then ['%', '2', '6']
  else if c = '=' then ['%', '3', 'D']
  else if c = '#' then ['%', '2', '3']
  else if c = '?' then ['%', '3', 'F']
  else if c = '%' then ['%', '2', '5']
  else if c = '+' then ['%', '2', 'B']
  else [c]

/-- Quote a string by concatenating the per-character encodings. -/
def toyQuote (l : List Char) : List Char :=
  l.foldr (fun c acc => toyQuoteChar c ++ acc) []

/-- Decode table for the escape pairs of `toyQuoteChar`. -/
def toyDec (a b : Char) : Option Char :=
  if a = '2' ∧ b = '6' then some '&'
  else if a = '3' ∧ b = 'D' then some '='
  else if a = '2' ∧ b = '3' then some '#'
  else if a = '3' ∧ b = 'F' then some '?'
  else if a = '2' ∧ b = '5' then some '%'
  else if a = '2' ∧ b = 'B' then some '+'
  else none

/-- Decode: `+` becomes space, a recognized `%XX` pair becomes its
character, anything else is literal (as in `unquote`, which leaves
unrecognized escapes alone). -/
def toyUnq : List Char → List Char
  | [] => []
  | '+' :: rest => ' ' :: toyUnq rest
  | '%' :: a :: b :: rest2 =>
    match toyDec a b with
    | some d => d :: toyUnq rest2
    | none => '%' :: toyUnq (a :: b :: rest2)
  | c :: rest => c :: toyUnq rest

/-- The concrete codec used to instantiate witnesses. -/
def toyCodec : Codec := ⟨toyQuote, toyUnq⟩

/-- The two facts the idempotence development needs from the percent
codec, both true of `quote_plus` / `unquote_plus`: decoding inverts
encoding, and encoded text never contains the reserved separator
characters `&`, `=`, `#`, `?`. -/
def CodecOK (cd : Codec) : Prop :=
  (∀ s, cd.unquote (cd.quote s) = s) ∧
    (∀ s c, c ∈ cd.quote s → c ≠ '&' ∧ c ≠ '=' ∧ c ≠ '#' ∧ c ≠ '?')

/-! ### A small concrete world for witnesses.

Base domain `https://x.edu`; the seed events page has 30 words of
content and links to `/p2` (which serves byte-identical content) and to
`/secret` (disallowed by robots).  Rendering is disabled and the sha256
digest is instantiated with the identity function. -/

/-- The 30-word content shared by the seed page and `/p2`. -/
def wContent : String :=
  "w w w w w w w w w w w w w w w w w w w w w w w w w w w w w w"

/-- Concrete witness environment. -/
def envW : Env :=
  { codec := toyCodec
    base_url := "https://x.edu"
    canFetch := fun u => u ≠ "https://x.edu/secret"
    netGet := fun u =>
      if u = "https://x.edu/events" then some "A"
      else if u = "https://x.edu/p2" then some "B"
      else none
    navGet := fun _ => none
    driverReady := false
    useRenderer := false
    extractMain := fun h =>
      if h = "A" then some ("tA", "dA", wContent)
      else if h = "B" then some ("tB", "dB", wContent)
      else none
    anchors := fun h =>
      if h = "A" then ["https://x.edu/p2", "https://x.edu/secret"] else []
    urljoin := fun _ href => href
    digest := fun s => s }

/-- The witness environment in which every fetch fails (used for the
zero-record run). -/
def envE : Env :=
  { envW with
      netGet := fun _ => none
      canFetch := fun _ => true
      anchors := fun _ => [] }

/-- Concrete environment in which the plain fetch returns a short page
containing the "load more" marker and the rendered fetch returns a
truthy page (used to witness the escalation claim). -/
def envR : Env :=
  { envW with
      canFetch := fun _ => true
      driverReady := true
      useRenderer := true
      netGet := fun _ => some "click to load more items"
      navGet := fun _ => some "RENDERED" }

/-- Environment whose page links to an administrative-panel URL (used to
show `extract_links` itself does not filter non-content patterns). -/
def envL : Env :=
  { envW with
      anchors := fun h =>
        if h = "L" then ["https://x.edu/wp-admin/install.php"] else [] }

/-- Environment configured with the default production base URL. -/
def envG : Env := { envW with base_url := "https://giki.edu.pk" }

set_option maxRecDepth 10000

/-! ### Basic facts about the crawl loop -/

/-- A record produced by `extract_content` carries the URL it was
extracted from. -/
theorem extract_content_url (env : Env) (html url : String) (pr : PageRecord)
    (h : extract_content env html url = some pr) : pr.url = url := by
  simp only [extract_content] at h
  rcases henv : env.extractMain html with _ | ⟨t, d, raw⟩
  · simp [henv] at h
  · simp only [henv] at h
    split_ifs at h <;>
      first
      | (simp at h; done)
      | (rw [Option.some_inj] at h; subst h; rfl)

/-- A record produced by `extract_content` has its `word_count` derived
from its content by `len(content.split())`. -/
theorem extract_content_wc (env : Env) (html url : String) (pr : PageRecord)
    (h : extract_content env html url = some pr) :
    pr.word_count = wordCount pr.content := by
  simp only [extract_content] at h
  rcases henv : env.extractMain html with _ | ⟨t, d, raw⟩
  · simp [henv] at h
  · simp only [henv] at h
    split_ifs at h <;>
      first
      | (simp at h; done)
      | (rw [Option.some_inj] at h; subst h; rfl)

/-- Unfolding `crawl` when the loop guard holds. -/
theorem crawl_step (env : Env) (m : Nat) (st : CState)
    (h : st.toVisit ≠ [] ∧ st.visited.length < m) :
    crawl env m st = crawl env m (crawlIter env st) := by
  rw [crawl]; rw [dif_pos h]

/-- Unfolding `crawl` when the loop guard fails. -/
theorem crawl_done (env : Env) (m : Nat) (st : CState)
    (h : ¬(st.toVisit ≠ [] ∧ st.visited.length < m)) :
    crawl env m st = st := by
  rw [crawl]; rw [dif_neg h]

/-- Every property preserved by one loop iteration holds of the final
crawl state. -/
theorem crawl_inv (env : Env) (m : Nat) (P : CState → Prop)
    (hstep : ∀ s, s.toVisit ≠ [] → s.visited.length < m → P s → P (crawlIter env s)) :
    ∀ st, P st → P (crawl env m st) := by
  intro st
  induction st using crawl.induct env m with
  | case1 x hx ih =>
    intro hPx
    rw [crawl_step env m x hx]
    exact ih (hstep x hx.1 hx.2 hPx)
  | case2 x hx =>
    intro hPx
    rw [crawl_done env m x hx]
    exact hPx

/-- The final crawl state falsifies the loop guard: the frontier is
exhausted or the visited budget is used up. -/
theorem crawl_post (env : Env) (m : Nat) (st : CState) :
    ¬((crawl env m st).toVisit ≠ [] ∧ (crawl env m st).visited.length < m) := by
  induction st using crawl.induct env m with
  | case1 x hx ih => rw [crawl_step env m x hx]; exact ih
  | case2 x hx => rw [crawl_done env m x hx]; exact hx

/-- Effect of `processFetched` on the stored collections: nothing
changes, or a record that passed the word-count gate is appended to
`candidates` and is either deduplicated away (hash already seen) or
stored in `records`, `saved` and `seenHashes`. -/
theorem processFetched_cases (env : Env) (s : CState) (url html : String) :
    ((processFetched env s url html).records = s.records ∧
     (processFetched env s url html).saved = s.saved ∧
     (processFetched env s url html).seenHashes = s.seenHashes ∧
     (processFetched env s url html).candidates = s.candidates) ∨
    (∃ pr : PageRecord, extract_content env html url = some pr ∧
      30 ≤ pr.word_count ∧
      ((content_hash env.digest pr.content ∈ s.seenHashes ∧
        (processFetched env s url html).records = s.records ∧
        (processFetched env s url html).saved = s.saved ∧
        (processFetched env s url html).seenHashes = s.seenHashes ∧
        (processFetched env s url html).candidates = s.candidates ++ [pr]) ∨
       (content_hash env.digest pr.content ∉ s.seenHashes ∧
        (processFetched env s url html).records = s.records ++ [pr] ∧
        (processFetched env s url html).saved = s.saved ++ [pr] ∧
        (processFetched env s url html).seenHashes =
          s.seenHashes ++ [content_hash env.digest pr.content] ∧
        (processFetched env s url html).candidates = s.candidates ++ [pr]))) := by
  simp only [processFetched]
  rcases hec : extract_content env html url with _ | pr
  · exact Or.inl ⟨rfl, rfl, rfl, rfl⟩
  · dsimp only
    split_ifs with hwc hdup
    · exact Or.inr ⟨pr, rfl, hwc, Or.inl ⟨hdup, rfl, rfl, rfl, rfl⟩⟩
    · exact Or.inr ⟨pr, rfl, hwc, Or.inr ⟨hdup, rfl, rfl, rfl, rfl⟩⟩
    · exact Or.inl ⟨rfl, rfl, rfl, rfl⟩

/-- Effect of one crawl iteration on the stored collections, as in
`processFetched_cases`; any appended record additionally was fetched
from a robots-allowed URL. -/
theorem crawlIter_store_cases (env : Env) (s : CState) :
    ((crawlIter env s).records = s.records ∧ (crawlIter env s).saved = s.saved ∧
     (crawlIter env s).seenHashes = s.seenHashes ∧
     (crawlIter env s).candidates = s.candidates) ∨
    (∃ pr : PageRecord, 30 ≤ pr.word_count ∧ env.canFetch pr.url = true ∧
      ((content_hash env.digest pr.content ∈ s.seenHashes ∧
        (crawlIter env s).records = s.records ∧ (crawlIter env s).saved = s.saved ∧
        (crawlIter env s).seenHashes = s.seenHashes ∧
        (crawlIter env s).candidates = s.candidates ++ [pr]) ∨
       (content_hash env.digest pr.content ∉ s.seenHashes ∧
        (crawlIter env s).records = s.records ++ [pr] ∧
        (crawlIter env s).saved = s.saved ++ [pr] ∧
        (crawlIter env s).seenHashes =
          s.seenHashes ++ [content_hash env.digest pr.content] ∧
        (crawlIter env s).candidates = s.candidates ++ [pr]))) := by
  rcases htv : s.toVisit with _ | ⟨u, rest⟩
  · exact Or.inl (by simp [crawlIter, htv])
  · simp only [crawlIter, htv]
    split_ifs with h1 h2 h3 h4
    · exact Or.inl ⟨rfl, rfl, rfl, rfl⟩
    · exact Or.inl ⟨rfl, rfl, rfl, rfl⟩
    · rcases processFetched_cases env _ (normalize_url env.codec u)
          ((fetchHtml env (normalize_url env.codec u)).1.getD "") with
        ⟨ha, hb, hc, hd⟩ | ⟨pr, hec, hwc, hpack⟩
      · exact Or.inl ⟨ha, hb, hc, hd⟩
      · refine Or.inr ⟨pr, hwc, ?_, hpack⟩
        rw [extract_content_url env _ _ pr hec]; exact h3
    · exact Or.inl ⟨rfl, rfl, rfl, rfl⟩
    · exact Or.inl ⟨rfl, rfl, rfl, rfl⟩

/-- Evaluation of the three-iteration witness run (seed accepted, `/p2`
deduplicated, `/secret` refused by robots). -/
theorem runW_eval : crawl envW 500 (initSt envW) =
    crawlIter envW (crawlIter envW (crawlIter envW (initSt envW))) := by
  rw [crawl_step envW 500 _ (by decide), crawl_step envW 500 _ (by decide),
    crawl_step envW 500 _ (by decide), crawl_done envW 500 _ (by decide)]

/-- Evaluation of the witness run under a page budget of 2: it stops
after two visits with a nonempty frontier. -/
theorem runW2_eval : crawl envW 2 (initSt envW) =
    crawlIter envW (crawlIter envW (initSt envW)) := by
  rw [crawl_step envW 2 _ (by decide), crawl_step envW 2 _ (by decide),
    crawl_done envW 2 _ (by decide)]

/-- Evaluation of the run in which every fetch fails: one iteration, no
records. -/
theorem runE_eval : crawl envE 500 (initSt envE) = crawlIter envE (initSt envE) := by
  rw [crawl_step envE 500 _ (by decide), crawl_done envE 500 _ (by decide)]

/-- C1: in any crawl run, every record that reaches the in-memory
sequence (and the per-page files, which receive exactly the same
records) has `word_count >= 30`, and `seenHashes` consists exactly of
the content hashes of those stored records — so a page whose extracted
content has fewer than 30 words contributes no stored record, no
per-page file and no hash entry. -/
theorem C1_word_count_gate (env : Env) (m : Nat) :
    (∀ r ∈ (crawl env m (initSt env)).records, 30 ≤ r.word_count) ∧
    (crawl env m (initSt env)).saved = (crawl env m (initSt env)).records ∧
    (crawl env m (initSt env)).seenHashes =
      (crawl env m (initSt env)).records.map
        (fun r => content_hash env.digest r.content) := by
  have h := crawl_inv env m
    (fun st => (∀ r ∈ st.records, 30 ≤ r.word_count) ∧ st.saved = st.records ∧
      st.seenHashes = st.records.map (fun r => content_hash env.digest r.content))
    ?_ (initSt env) ⟨by simp [initSt], by simp [initSt], by simp [initSt]⟩
  · exact h
  · intro s _ _ hP
    obtain ⟨hA, hB, hC⟩ := hP
    rcases crawlIter_store_cases env s with ⟨h1, h2, h3, _⟩ |
      ⟨pr, hwc, _, ⟨_, h1, h2, h3, _⟩ | ⟨_, h1, h2, h3, _⟩⟩
    · rw [h1, h2, h3]; exact ⟨hA, hB, hC⟩
    · rw [h1, h2, h3]; exact ⟨hA, hB, hC⟩
    · rw [h1, h2, h3]
      refine ⟨?_, ?_, ?_⟩
      · intro r hr
        rcases List.mem_append.1 hr with hr | hr
        · exact hA r hr
        · rw [List.mem_singleton.1 hr]; exact hwc
      · rw [hB]
      · rw [hC, List.map_append]; rfl

/-- C1 witness: in the concrete run, the accepted events-page record is
stored and satisfies the gate. -/
theorem C1_word_count_gate_witness :
    (⟨"https://x.edu/events", "tA", "dA", wContent, 30⟩ : PageRecord) ∈
      (crawl envW 500 (initSt envW)).records ∧
    30 ≤ (⟨"https://x.edu/events", "tA", "dA", wContent, 30⟩ : PageRecord).word_count :=
  ⟨by rw [runW_eval]; decide,
   (C1_word_count_gate envW 500).1 ⟨"https://x.edu/events", "tA", "dA", wContent, 30⟩
     (by rw [runW_eval]; decide)⟩

/-! ### List-level facts about first-wins dedup -/

/-- Unfolding `keepFirstBy` over a final element. -/
theorem keepFirstBy_append (k : PageRecord → String) (l : List PageRecord)
    (r : PageRecord) :
    keepFirstBy k (l ++ [r]) =
      if k r ∈ (keepFirstBy k l).map k then keepFirstBy k l
      else keepFirstBy k l ++ [r] := by
  simp only [keepFirstBy, List.foldl_append, List.foldl_cons, List.foldl_nil]

/-- Dedup keeps only elements of the input. -/
theorem keepFirstBy_subset (k : PageRecord → String) (l : List PageRecord) :
    keepFirstBy k l ⊆ l := by
  induction l using List.reverseRecOn with
  | nil => simp [keepFirstBy]
  | append_singleton l r ih =>
    rw [keepFirstBy_append]
    split_ifs
    · exact ih.trans (List.subset_append_left l [r])
    · exact List.append_subset.2
        ⟨ih.trans (List.subset_append_left l [r]), by simp⟩

/-- Every key of the input survives dedup. -/
theorem keepFirstBy_key_mem (k : PageRecord → String) (l : List PageRecord)
    (x : PageRecord) (hx : x ∈ l) : k x ∈ (keepFirstBy k l).map k := by
  induction l using List.reverseRecOn with
  | nil => simp at hx
  | append_singleton l r ih =>
    rw [keepFirstBy_append]
    rcases List.mem_append.1 hx with hx | hx
    · split_ifs
      · exact ih hx
      · rw [List.map_append]; exact List.mem_append_left _ (ih hx)
    · rw [List.mem_singleton.1 hx]
      split_ifs with hmem
      · exact hmem
      · rw [List.map_append]; exact List.mem_append_right _ (by simp)

/-- The keys of the dedup output are pairwise distinct. -/
theorem keepFirstBy_key_nodup (k : PageRecord → String) (l : List PageRecord) :
    ((keepFirstBy k l).map k).Nodup := by
  induction l using List.reverseRecOn with
  | nil => simp [keepFirstBy]
  | append_singleton l r ih =>
    rw [keepFirstBy_append]
    split_ifs with hmem
    · exact ih
    · rw [List.map_append]
      simp only [List.map_cons, List.map_nil]
      exact List.nodup_append.2 ⟨ih, List.nodup_singleton _, by simpa using hmem⟩

/-- The head of a list is a member. -/
theorem mem_of_head?_eq (l : List PageRecord) (y : PageRecord)
    (h : l.head? = some y) : y ∈ l := by
  cases l with
  | nil => simp at h
  | cons a t => rw [List.head?_cons, Option.some_inj] at h; rw [h]; simp

/-- First-wins: for every input element, the first input element with
its key survives dedup. -/
theorem keepFirstBy_first_kept (k : PageRecord → String) (l : List PageRecord) :
    ∀ x ∈ l,
      ∃ y, (l.filter (fun z => k z = k x)).head? = some y ∧ y ∈ keepFirstBy k l := by
  induction l using List.reverseRecOn with
  | nil => intro x hx; simp at hx
  | append_singleton l r ih =>
    intro x hx
    by_cases hw : ∃ w ∈ l, k w = k x
    · obtain ⟨w, hwl, hwk⟩ := hw
      obtain ⟨y, hy1, hy2⟩ := ih w hwl
      refine ⟨y, ?_, ?_⟩
      · rw [List.filter_append]
        have hch : l.filter (fun z => k z = k x) = l.filter (fun z => k z = k w) := by
          apply List.filter_congr
          intro a _
          rw [hwk]
        rw [hch]
        have hne : l.filter (fun z => k z = k w) ≠ [] := by
          intro hnil
          have : w ∈ l.filter (fun z => k z = k w) := by
            rw [List.mem_filter]; exact ⟨hwl, by simp⟩
          rw [hnil] at this; simp at this
        rcases hfl : l.filter (fun z => k z = k w) with _ | ⟨a, t⟩
        · exact absurd hfl hne
        · rw [hfl] at hy1
          simpa using hy1
      · rw [keepFirstBy_append]
        split_ifs
        · exact hy2
        · exact List.mem_append_left _ hy2
    · push_neg at hw
      have hxr : x = r := by
        rcases List.mem_append.1 hx with hx | hx
        · exact absurd rfl (hw x hx)
        · exact List.mem_singleton.1 hx
      subst hxr
      have hfl : l.filter (fun z => k z = k x) = [] := by
        rw [List.filter_eq_nil_iff]
        intro a ha
        simpa using hw a ha
      refine ⟨x, ?_, ?_⟩
      · rw [List.filter_append, hfl]
        simp
      · rw [keepFirstBy_append]
        have hnm : k x ∉ (keepFirstBy k l).map k := by
          intro hm
          obtain ⟨y, hy1, hy2⟩ := List.mem_map.1 hm
          exact hw y (keepFirstBy_subset k l hy1) hy2
        rw [if_neg hnm]
        exact List.mem_append_right _ (by simp)

/-- C2: dedup is strictly content-based and first-wins.  In any crawl
run, (i) the stored record sequence equals the first-wins dedup (keyed
by content hash) of the sequence of records that passed the word-count
gate, and (ii) assuming the truncated sha256 digest does not collide on
the contents seen in the run, every gate-passing page (in particular
each of two distinct URLs serving byte-identical extracted content) is
represented by exactly one stored record: the one of the first-seen
URL with that content; the later page's record is discarded. -/
theorem C2_content_dedup (env : Env) (m : Nat)
    (hinj : ∀ r1 ∈ (crawl env m (initSt env)).candidates,
        ∀ r2 ∈ (crawl env m (initSt env)).candidates,
        content_hash env.digest r1.content = content_hash env.digest r2.content →
          r1.content = r2.content) :
    (crawl env m (initSt env)).records =
      keepFirstBy (fun r => content_hash env.digest r.content)
        (crawl env m (initSt env)).candidates ∧
    ∀ c ∈ (crawl env m (initSt env)).candidates,
      ∃ r, ((crawl env m (initSt env)).candidates.filter
          (fun x => x.content = c.content)).head? = some r ∧
        r ∈ (crawl env m (initSt env)).records ∧
        ∀ r2 ∈ (crawl env m (initSt env)).records, r2.content = c.content → r2 = r := by
  have base : (crawl env m (initSt env)).records =
      keepFirstBy (fun r => content_hash env.digest r.content)
        (crawl env m (initSt env)).candidates ∧
      (crawl env m (initSt env)).seenHashes =
        ((crawl env m (initSt env)).records).map
          (fun r => content_hash env.digest r.content) := by
    refine crawl_inv env m
      (fun st => st.records =
          keepFirstBy (fun r => content_hash env.digest r.content) st.candidates ∧
        st.seenHashes = st.records.map (fun r => content_hash env.digest r.content))
      ?_ (initSt env) ⟨by simp [initSt, keepFirstBy], by simp [initSt]⟩
    intro s _ _ hP
    obtain ⟨hR, hS⟩ := hP
    rcases crawlIter_store_cases env s with ⟨h1, _, h3, h4⟩ |
      ⟨pr, _, _, ⟨hdup, h1, _, h3, h4⟩ | ⟨hdup, h1, _, h3, h4⟩⟩
    · rw [h1, h3, h4]; exact ⟨hR, hS⟩
    · rw [h1, h3, h4]
      refine ⟨?_, hS⟩
      rw [keepFirstBy_append, if_pos]
      · exact hR
      · rw [hS, hR] at hdup; exact hdup
    · rw [h1, h3, h4]
      refine ⟨?_, ?_⟩
      · rw [keepFirstBy_append, if_neg]
        · rw [hR]
        · rw [hS, hR] at hdup; exact hdup
      · rw [hS, List.map_append]; rfl
    
  refine ⟨base.1, ?_⟩
  intro c hc
  obtain ⟨y, hy1, hy2⟩ :=
    keepFirstBy_first_kept (fun r => content_hash env.digest r.content)
      (crawl env m (initSt env)).candidates c hc
  have hfc : (crawl env m (initSt env)).candidates.filter
      (fun z => content_hash env.digest z.content = content_hash env.digest c.content) =
      (crawl env m (initSt env)).candidates.filter (fun x => x.content = c.content) := by
    apply List.filter_congr
    intro a ha
    apply decide_eq_decide.2
    constructor
    · intro h; exact hinj a ha c hc h
    · intro h; rw [h]
  refine ⟨y, ?_, ?_, ?_⟩
  · rw [← hfc]; exact hy1
  · rw [base.1]; exact hy2
  · intro r2 hr2 hcont
    have hyf : y ∈ (crawl env m (initSt env)).candidates.filter
        (fun z => content_hash env.digest z.content = content_hash env.digest c.content) :=
      mem_of_head?_eq _ y hy1
    rw [List.mem_filter] at hyf
    have hky : content_hash env.digest y.content = content_hash env.digest c.content := by
      have := hyf.2; simpa using this
    have hkr2 : content_hash env.digest r2.content = content_hash env.digest c.content := by
      rw [hcont]
    rw [base.1] at hr2
    exact List.inj_on_of_nodup_map
      (keepFirstBy_key_nodup (fun r => content_hash env.digest r.content)
        (crawl env m (initSt env)).candidates)
      hr2 hy2 (by rw [hkr2, hky])

/-- C2 witness: in the concrete run the seed page and `/p2` serve
byte-identical content; exactly the seed record is stored. -/
theorem C2_content_dedup_witness :
    (∀ r1 ∈ (crawl envW 500 (initSt envW)).candidates,
      ∀ r2 ∈ (crawl envW 500 (initSt envW)).candidates,
      content_hash envW.digest r1.content = content_hash envW.digest r2.content →
        r1.content = r2.content) ∧
    (⟨"https://x.edu/p2", "tB", "dB", wContent, 30⟩ : PageRecord) ∈
      (crawl envW 500 (initSt envW)).candidates ∧
    ∃ r, ((crawl envW 500 (initSt envW)).candidates.filter
        (fun x => x.content =
          (⟨"https://x.edu/p2", "tB", "dB", wContent, 30⟩ : PageRecord).content)).head? =
        some r ∧
      r ∈ (crawl envW 500 (initSt envW)).records ∧
      ∀ r2 ∈ (crawl envW 500 (initSt envW)).records,
        r2.content = (⟨"https://x.edu/p2", "tB", "dB", wContent, 30⟩ : PageRecord).content →
          r2 = r :=
  ⟨by rw [runW_eval]; decide, by rw [runW_eval]; decide,
   (C2_content_dedup envW 500 (by rw [runW_eval]; decide)).2
     ⟨"https://x.edu/p2", "tB", "dB", wContent, 30⟩ (by rw [runW_eval]; decide)⟩

/-- `processFetched` never changes the visited set. -/
theorem processFetched_visited (env : Env) (s : CState) (url html : String) :
    (processFetched env s url html).visited = s.visited := by
  simp only [processFetched]
  cases extract_content env html url with
  | none => rfl
  | some pr => dsimp only; split_ifs <;> rfl

/-- One iteration either leaves the visited set unchanged (already
visited or off-domain pop) or marks exactly the freshly dequeued,
not-yet-visited URL as visited. -/
theorem crawlIter_visited_cases (env : Env) (s : CState) :
    (crawlIter env s).visited = s.visited ∨
    ∃ u rest, s.toVisit = u :: rest ∧ normalize_url env.codec u ∉ s.visited ∧
      (crawlIter env s).visited = s.visited ++ [normalize_url env.codec u] := by
  rcases htv : s.toVisit with _ | ⟨u, rest⟩
  · exact Or.inl (by simp [crawlIter, htv])
  · simp only [crawlIter, htv]
    split_ifs with h1 h2 h3 h4
    · exact Or.inl rfl
    · exact Or.inr ⟨u, rest, rfl, h1, by simp [afterPop]⟩
    · exact Or.inr ⟨u, rest, rfl, h1,
        by rw [processFetched_visited]; simp [afterPop]⟩
    · exact Or.inr ⟨u, rest, rfl, h1, by simp [afterPop, deniedStep]⟩
    · exact Or.inl rfl

/-- The visited set only grows across an iteration. -/
theorem crawlIter_visited_mono (env : Env) (s : CState) :
    s.visited ⊆ (crawlIter env s).visited := by
  rcases crawlIter_visited_cases env s with h | ⟨u, rest, _, _, h⟩
  · rw [h]; exact List.Subset.refl _
  · rw [h]; exact List.subset_append_left _ _

/-- C3: the crawl loop is a total function (it terminates on every
input), its final state falsifies the loop guard — the frontier is empty
or the number of visited URLs equals the page budget, whichever came
first — and the visited count never exceeds the budget.  In the
concrete three-page world with budget 2 < 3, exactly 2 URLs are visited
and a frontier entry remains. -/
theorem C3_termination_budget (env : Env) (m : Nat) :
    (crawl env m (initSt env)).visited.length ≤ m ∧
    ((crawl env m (initSt env)).toVisit = [] ∨
      (crawl env m (initSt env)).visited.length = m) ∧
    (crawl envW 2 (initSt envW)).visited.length = 2 ∧
    (crawl envW 2 (initSt envW)).toVisit ≠ [] := by
  have hle : (crawl env m (initSt env)).visited.length ≤ m := by
    refine crawl_inv env m (fun st => st.visited.length ≤ m) ?_ (initSt env)
      (by simp [initSt])
    intro s _ hlt _
    rcases crawlIter_visited_cases env s with h | ⟨u, rest, _, _, h⟩
    · rw [h]; omega
    · rw [h]; rw [List.length_append]; simp; omega
  refine ⟨hle, ?_, ?_, ?_⟩
  · have hpost := crawl_post env m (initSt env)
    push_neg at hpost
    by_cases htv : (crawl env m (initSt env)).toVisit = []
    · exact Or.inl htv
    · exact Or.inr (le_antisymm hle (hpost htv))
  · rw [runW2_eval]; decide
  · rw [runW2_eval]; decide

/-- Events of a plain fetch: only an actual network GET of the given
URL, and only when robots allow it. -/
theorem fetch_via_requests_events (env : Env) (u : String) (ev : Ev)
    (h : ev ∈ (fetch_via_requests env u).2) :
    ev = Ev.netGet u ∧ env.canFetch u = true := by
  simp only [fetch_via_requests] at h
  split_ifs at h with hc
  all_goals first
  | (exact ⟨by simpa using h, by simpa using hc⟩)
  | (simp at h; done)

/-- Events of a rendered fetch: only an actual browser navigation to the
given URL, and only with a ready driver and robots permission. -/
theorem fetch_via_selenium_events (env : Env) (u : String) (ev : Ev)
    (h : ev ∈ (fetch_via_selenium env u).2) :
    ev = Ev.navGet u ∧ env.canFetch u = true ∧ env.driverReady = true := by
  simp only [fetch_via_selenium] at h
  split_ifs at h with hd hc
  all_goals first
  | (exact ⟨by simpa using h, by simpa using hc, by simpa using hd⟩)
  | (simp at h; done)

/-- Events of the combined fetch of lines 264-270: network GETs and
browser navigations only happen for robots-allowed URLs. -/
theorem fetchHtml_events (env : Env) (u : String) (ev : Ev)
    (h : ev ∈ (fetchHtml env u).2) :
    (ev = Ev.netGet u ∧ env.canFetch u = true) ∨ ev = Ev.selCall u ∨
      (ev = Ev.navGet u ∧ env.canFetch u = true ∧ env.driverReady = true) := by
  rcases hfr : fetch_via_requests env u with ⟨html, e1⟩
  rcases hfs : fetch_via_selenium env u with ⟨sh, e2⟩
  have he1 : ∀ e ∈ e1, e = Ev.netGet u ∧ env.canFetch u = true := by
    intro e he
    exact fetch_via_requests_events env u e (by rw [hfr]; exact he)
  have he2 : ∀ e ∈ e2, e = Ev.navGet u ∧ env.canFetch u = true ∧
      env.driverReady = true := by
    intro e he
    exact fetch_via_selenium_events env u e (by rw [hfs]; exact he)
  simp only [fetchHtml, hfr, hfs] at h
  split_ifs at h with hr
  · rcases sh with _ | s
    · dsimp only at h
      rcases List.mem_append.1 h with h | h
      · exact Or.inl (he1 ev h)
      · rcases List.mem_cons.1 h with h | h
        · exact Or.inr (Or.inl h)
        · exact Or.inr (Or.inr (he2 ev h))
    · dsimp only at h
      split_ifs at h <;>
      · rcases List.mem_append.1 h with h | h
        · exact Or.inl (he1 ev h)
        · rcases List.mem_cons.1 h with h | h
          · exact Or.inr (Or.inl h)
          · exact Or.inr (Or.inr (he2 ev h))
  · exact Or.inl (he1 ev h)

/-- `processFetched` never changes the trace. -/
theorem processFetched_trace (env : Env) (s : CState) (url html : String) :
    (processFetched env s url html).trace = s.trace := by
  simp only [processFetched]
  cases extract_content env html url with
  | none => rfl
  | some pr => dsimp only; split_ifs <;> rfl

/-- Trace growth of one iteration: the events appended by an iteration
perform network GETs and browser navigations only on robots-allowed
URLs, a robots refusal marks its URL visited, and every dequeued URL is
either robots-allowed, off-domain, or ends up visited. -/
theorem crawlIter_trace_cases (env : Env) (s : CState) :
    ∃ evs, (crawlIter env s).trace = s.trace ++ evs ∧
      (∀ u, Ev.netGet u ∈ evs → env.canFetch u = true) ∧
      (∀ u, Ev.navGet u ∈ evs → env.canFetch u = true) ∧
      (∀ u, Ev.denied u ∈ evs → env.canFetch u = false ∧
        u ∈ (crawlIter env s).visited) ∧
      (∀ u, Ev.pop u ∈ evs →
        u ∈ (crawlIter env s).visited ∨ same_domain u (baseOf env) = false) := by
  rcases htv : s.toVisit with _ | ⟨u, rest⟩
  · exact ⟨[], by simp [crawlIter, htv], by simp, by simp, by simp, by simp⟩
  · have hfev := fetchHtml_events env (normalize_url env.codec u)
    simp only [crawlIter, htv]
    split_ifs with h1 h2 h3 h4
    · refine ⟨[Ev.pop (normalize_url env.codec u)], by simp [afterPop], by simp,
        by simp, by simp, ?_⟩
      intro v hv
      rw [List.mem_singleton] at hv
      rw [Ev.pop.injEq] at hv
      subst hv
      exact Or.inl h1
    · refine ⟨Ev.pop (normalize_url env.codec u) ::
        (fetchHtml env (normalize_url env.codec u)).2,
        by simp [afterPop], ?_, ?_, ?_, ?_⟩
      · intro v hv
        rcases List.mem_cons.1 hv with hv | hv
        · simp at hv
        · rcases hfev _ hv with ⟨he, hc⟩ | he | ⟨he, _⟩
          · rw [Ev.netGet.injEq] at he; subst he; exact hc
          · simp at he
          · simp at he
      · intro v hv
        rcases List.mem_cons.1 hv with hv | hv
        · simp at hv
        · rcases hfev _ hv with ⟨he, _⟩ | he | ⟨he, hc, _⟩
          · simp at he
          · simp at he
          · rw [Ev.navGet.injEq] at he; subst he; exact hc
      · intro v hv
        rcases List.mem_cons.1 hv with hv | hv
        · simp at hv
        · rcases hfev _ hv with ⟨he, _⟩ | he | ⟨he, _⟩ <;> simp at he
      · intro v hv
        rcases List.mem_cons.1 hv with hv | hv
        · rw [Ev.pop.injEq] at hv
          subst hv
          exact Or.inl (by simp [afterPop])
        · rcases hfev _ hv with ⟨he, _⟩ | he | ⟨he, _⟩ <;> simp at he
    · refine ⟨Ev.pop (normalize_url env.codec u) ::
        (fetchHtml env (normalize_url env.codec u)).2,
        by rw [processFetched_trace]; simp [afterPop], ?_, ?_, ?_, ?_⟩
      · intro v hv
        rcases List.mem_cons.1 hv with hv | hv
        · simp at hv
        · rcases hfev _ hv with ⟨he, hc⟩ | he | ⟨he, _⟩
          · rw [Ev.netGet.injEq] at he; subst he; exact hc
          · simp at he
          · simp at he
      · intro v hv
        rcases List.mem_cons.1 hv with hv | hv
        · simp at hv
        · rcases hfev _ hv with ⟨he, _⟩ | he | ⟨he, hc, _⟩
          · simp at he
          · simp at he
          · rw [Ev.navGet.injEq] at he; subst he; exact hc
      · intro v hv
        rcases List.mem_cons.1 hv with hv | hv
        · simp at hv
        · rcases hfev _ hv with ⟨he, _⟩ | he | ⟨he, _⟩ <;> simp at he
      · intro v hv
        rcases List.mem_cons.1 hv with hv | hv
        · rw [Ev.pop.injEq] at hv
          subst hv
          exact Or.inl (by rw [processFetched_visited]; simp [afterPop])
        · rcases hfev _ hv with ⟨he, _⟩ | he | ⟨he, _⟩ <;> simp at he
    · refine ⟨[Ev.pop (normalize_url env.codec u),
        Ev.denied (normalize_url env.codec u)],
        by simp [afterPop, deniedStep], by simp, by simp, ?_, ?_⟩
      · intro v hv
        simp only [List.mem_cons, List.mem_singleton] at hv
        rcases hv with hv | hv | hv
        · simp at hv
        · rw [Ev.denied.injEq] at hv
          subst hv
          refine ⟨by simpa using h3, ?_⟩
          simp [deniedStep, afterPop]
        · simp at hv
      · intro v hv
        simp only [List.mem_cons, List.mem_singleton] at hv
        rcases hv with hv | hv | hv
        · rw [Ev.pop.injEq] at hv
          subst hv
          exact Or.inl (by simp [deniedStep, afterPop])
        · simp at hv
        · simp at hv
    · refine ⟨[Ev.pop (normalize_url env.codec u)], by simp [afterPop], by simp,
        by simp, by simp, ?_⟩
      intro v hv
      rw [List.mem_singleton] at hv
      rw [Ev.pop.injEq] at hv
      subst hv
      exact Or.inr (by simpa using h2)

/-- C4: robots compliance.  In any crawl run from the initial state, a
URL the robots policy disallows is never the target of a network GET or
a browser navigation and never yields a stored record; a robots refusal
marks its URL visited; every dequeued in-domain robots-disallowed URL
ends up in the visited set; and, at the level of a single iteration,
dequeuing a fresh in-domain disallowed URL advances the progress bar by
one, marks exactly that URL visited, and stores nothing. -/
theorem C4_robots_compliance (env : Env) (m : Nat) :
    (∀ u, env.canFetch u = false →
      Ev.netGet u ∉ (crawl env m (initSt env)).trace ∧
      Ev.navGet u ∉ (crawl env m (initSt env)).trace) ∧
    (∀ r ∈ (crawl env m (initSt env)).records, env.canFetch r.url = true) ∧
    (∀ u, Ev.denied u ∈ (crawl env m (initSt env)).trace →
      env.canFetch u = false ∧ u ∈ (crawl env m (initSt env)).visited) ∧
    (∀ u, Ev.pop u ∈ (crawl env m (initSt env)).trace →
      env.canFetch u = false → same_domain u (baseOf env) = true →
        u ∈ (crawl env m (initSt env)).visited) ∧
    (∀ s : CState, ∀ u rest, s.toVisit = u :: rest →
      normalize_url env.codec u ∉ s.visited →
      same_domain (normalize_url env.codec u) (baseOf env) = true →
      env.canFetch (normalize_url env.codec u) = false →
      (crawlIter env s).progress = s.progress + 1 ∧
      (crawlIter env s).visited = s.visited ++ [normalize_url env.codec u] ∧
      (crawlIter env s).records = s.records) := by
  have main := crawl_inv env m
    (fun st =>
      (∀ u, env.canFetch u = false →
        Ev.netGet u ∉ st.trace ∧ Ev.navGet u ∉ st.trace) ∧
      (∀ r ∈ st.records, env.canFetch r.url = true) ∧
      (∀ u, Ev.denied u ∈ st.trace → env.canFetch u = false ∧ u ∈ st.visited) ∧
      (∀ u, Ev.pop u ∈ st.trace →
        env.canFetch u = false → same_domain u (baseOf env) = true →
          u ∈ st.visited))
    ?_ (initSt env) ⟨by simp [initSt], by simp [initSt], by simp [initSt],
      by simp [initSt]⟩
  · refine ⟨main.1, main.2.1, main.2.2.1, main.2.2.2, ?_⟩
    intro s u rest htv hnv hsd hcf
    simp only [crawlIter, htv]
    rw [if_neg (by simpa [afterPop] using hnv), if_neg (by rw [hsd]; simp),
      if_pos (by rw [hcf]; simp)]
    exact ⟨rfl, by simp [deniedStep, afterPop], rfl⟩
  · intro s _ _ hP
    obtain ⟨hN, hR, hD, hPp⟩ := hP
    obtain ⟨evs, htr, henet, henav, hedenied, hepop⟩ := crawlIter_trace_cases env s
    have hmono := crawlIter_visited_mono env s
    refine ⟨?_, ?_, ?_, ?_⟩
    · intro u hu
      constructor
      · rw [htr]
        intro hmem
        rcases List.mem_append.1 hmem with hmem | hmem
        · exact (hN u hu).1 hmem
        · rw [henet u hmem] at hu; simp at hu
      · rw [htr]
        intro hmem
        rcases List.mem_append.1 hmem with hmem | hmem
        · exact (hN u hu).2 hmem
        · rw [henav u hmem] at hu; simp at hu
    · intro r hr
      rcases crawlIter_store_cases env s with ⟨h1, _, _, _⟩ |
        ⟨pr, _, hprcf, ⟨_, h1, _, _, _⟩ | ⟨_, h1, _, _, _⟩⟩
      · rw [h1] at hr; exact hR r hr
      · rw [h1] at hr; exact hR r hr
      · rw [h1] at hr
        rcases List.mem_append.1 hr with hr | hr
        · exact hR r hr
        · rw [List.mem_singleton.1 hr]; exact hprcf
    · intro u hu
      rw [htr] at hu
      rcases List.mem_append.1 hu with hu | hu
      · obtain ⟨hcf, hvis⟩ := hD u hu
        exact ⟨hcf, hmono hvis⟩
      · exact hedenied u hu
    · intro u hu hcf hsd
      rw [htr] at hu
      rcases List.mem_append.1 hu with hu | hu
      · exact hmono (hPp u hu hcf hsd)
      · rcases hepop u hu with hc | hc
        · exact hc
        · rw [hc] at hsd; simp at hsd

/-- C4 witness: in the concrete run, `/secret` is robots-disallowed,
linked from the accepted seed page, never fetched, yields no record,
and is nevertheless marked visited after its dequeue. -/
theorem C4_robots_compliance_witness :
    envW.canFetch "https://x.edu/secret" = false ∧
    Ev.netGet "https://x.edu/secret" ∉ (crawl envW 500 (initSt envW)).trace ∧
    Ev.navGet "https://x.edu/secret" ∉ (crawl envW 500 (initSt envW)).trace ∧
    Ev.denied "https://x.edu/secret" ∈ (crawl envW 500 (initSt envW)).trace ∧
    "https://x.edu/secret" ∈ (crawl envW 500 (initSt envW)).visited ∧
    (∀ r ∈ (crawl envW 500 (initSt envW)).records,
      r.url ≠ "https://x.edu/secret") :=
  ⟨by decide,
   ((C4_robots_compliance envW 500).1 "https://x.edu/secret" (by decide)).1,
   ((C4_robots_compliance envW 500).1 "https://x.edu/secret" (by decide)).2,
   by rw [runW_eval]; decide,
   by rw [runW_eval]; decide,
   by rw [runW_eval]; decide⟩


/-- C5: fetch-strategy selection.  For every URL processed by the crawl
loop (whose fetch step is exactly `fetchHtml`), a rendered fetch is
attempted (i.e. `fetch_via_selenium` is invoked, traced as `selCall`)
precisely when rendering is enabled AND the plain fetch result is falsy
(`None` or empty), or is shorter than 800 characters, or contains one of
the fixed dynamic-content markers (case-insensitively); when rendering
is disabled the plain result stands unchanged, and when the rendered
fetch yields nothing truthy the plain result (possibly empty) stands
unchanged. -/
theorem C5_render_escalation (env : Env) (u : String) :
    (Ev.selCall u ∈ (fetchHtml env u).2 ↔
      (env.useRenderer = true ∧
        ((fetch_via_requests env u).1 = none ∨
         (fetch_via_requests env u).1 = some "" ∨
         ∃ s, (fetch_via_requests env u).1 = some s ∧
           (s.length < 800 ∨
            ∃ tok ∈ dynMarkers, subIn tok.toList (lowerL s.toList) = true)))) ∧
    (env.useRenderer = false → fetchHtml env u = fetch_via_requests env u) ∧
    ((fetch_via_selenium env u).1 = none ∨ (fetch_via_selenium env u).1 = some "" →
      (fetchHtml env u).1 = (fetch_via_requests env u).1) := by
  rcases hfr : fetch_via_requests env u with ⟨html, e1⟩
  rcases hfs : fetch_via_selenium env u with ⟨sh, e2⟩
  have he1 : ∀ e ∈ e1, e = Ev.netGet u ∧ env.canFetch u = true := by
    intro e he
    exact fetch_via_requests_events env u e (by rw [hfr]; exact he)
  have hnr : (needsRender html = true) ↔
      (html = none ∨ html = some "" ∨
        ∃ s, html = some s ∧
          (s.length < 800 ∨
            ∃ tok ∈ dynMarkers, subIn tok.toList (lowerL s.toList) = true)) := by
    rcases html with _ | s
    · simp [needsRender]
    · constructor
      · intro h
        simp only [needsRender, Bool.or_eq_true, decide_eq_true_eq,
          List.any_eq_true] at h
        rcases h with (h | h) | h
        · exact Or.inr (Or.inl (by rw [h]))
        · exact Or.inr (Or.inr ⟨s, rfl, Or.inl h⟩)
        · exact Or.inr (Or.inr ⟨s, rfl, Or.inr h⟩)
      · intro h
        simp only [needsRender, Bool.or_eq_true, decide_eq_true_eq,
          List.any_eq_true]
        rcases h with h | h | ⟨s2, hs2, h⟩
        · simp at h
        · rw [Option.some_inj] at h
          exact Or.inl (Or.inl h)
        · rw [Option.some_inj] at hs2
          subst hs2
          rcases h with h | h
          · exact Or.inl (Or.inr h)
          · exact Or.inr h
  refine ⟨?_, ?_, ?_⟩
  · simp only [fetchHtml, hfr, hfs]
    constructor
    · intro h
      split_ifs at h with hcond
      · rw [Bool.and_eq_true] at hcond
        exact ⟨hcond.2, hnr.mp hcond.1⟩
      · exact absurd (he1 _ h).1 (by intro he; cases he)
    · intro hh
      obtain ⟨hu, hcond⟩ := hh
      have hc : (needsRender html && env.useRenderer) = true := by
        rw [hu, Bool.and_true]
        exact hnr.mpr hcond
      rw [if_pos hc]
      rcases sh with _ | s
      · exact List.mem_append_right _ (List.mem_cons_self _ _)
      · dsimp only
        split_ifs <;> exact List.mem_append_right _ (List.mem_cons_self _ _)
  · intro hu
    simp [fetchHtml, hfr, hu]
  · intro hsel
    have hsel2 : sh = none ∨ sh = some "" := by simpa using hsel
    simp only [fetchHtml, hfr, hfs]
    split_ifs with hcond
    · rcases hsel2 with h | h <;> subst h <;> simp
    · rfl

/-- C5 witness: with rendering enabled, a short plain page containing
"load more" triggers a rendered-fetch attempt; with rendering disabled
(same plain result) the plain result stands as-is. -/
theorem C5_render_escalation_witness :
    Ev.selCall "https://x.edu/p" ∈ (fetchHtml envR "https://x.edu/p").2 ∧
    fetchHtml envW "https://x.edu/p" = fetch_via_requests envW "https://x.edu/p" :=
  ⟨(C5_render_escalation envR "https://x.edu/p").1.mpr
    (by refine ⟨rfl, Or.inr (Or.inr ⟨"click to load more items", rfl, ?_⟩)⟩
        exact Or.inl (by decide)),
   (C5_render_escalation envW "https://x.edu/p").2.1 rfl⟩

/-- Membership after the enqueue loop: an element is an old frontier
entry or a link that matched no non-content pattern and was not visited. -/
theorem enqueueLinks_mem (visited : List String) (links : List String) :
    ∀ tv l, l ∈ enqueueLinks visited tv links →
      l ∈ tv ∨ (badPattern l = false ∧ l ∉ visited) := by
  induction links with
  | nil => intro tv l h; exact Or.inl h
  | cons x ls ih =>
    intro tv l h
    simp only [enqueueLinks, List.foldl_cons] at h
    rcases ih _ l h with hm | hm
    · split_ifs at hm with h1 h2
      · exact Or.inl hm
      · exact Or.inl hm
      · rcases List.mem_append.1 hm with hm | hm
        · exact Or.inl hm
        · rw [List.mem_singleton.1 hm]
          push_neg at h1
          exact Or.inr ⟨by simpa using h2, h1.1⟩
    · exact Or.inr hm

/-- The enqueue loop never adds a URL that is already in the visited set
or already pending: its multiplicity in the frontier is unchanged. -/
theorem enqueueLinks_count (visited : List String) (links : List String) :
    ∀ tv l, l ∈ visited ∨ l ∈ tv →
      List.count l (enqueueLinks visited tv links) = List.count l tv := by
  induction links with
  | nil => intro tv l _; rfl
  | cons x ls ih =>
    intro tv l hl
    simp only [enqueueLinks, List.foldl_cons]
    split_ifs with h1 h2
    · exact ih tv l hl
    · exact ih tv l hl
    · have hlx : l ≠ x := by
        push_neg at h1
        rintro rfl
        rcases hl with hl | hl
        · exact h1.1 hl
        · exact h1.2 hl
      have hcnt : List.count l (tv ++ [x]) = List.count l tv := by
        rw [List.count_append]
        simp [hlx]
      have hmem : l ∈ visited ∨ l ∈ tv ++ [x] := by
        rcases hl with hl | hl
        · exact Or.inl hl
        · exact Or.inr (List.mem_append_left _ hl)
      exact (ih (tv ++ [x]) l hmem).trans hcnt

/-- The enqueue loop preserves frontier duplicate-freedom. -/
theorem enqueueLinks_nodup (visited : List String) (links : List String) :
    ∀ tv, tv.Nodup → (enqueueLinks visited tv links).Nodup := by
  induction links with
  | nil => intro tv h; exact h
  | cons x ls ih =>
    intro tv h
    simp only [enqueueLinks, List.foldl_cons]
    split_ifs with h1 h2
    · exact ih tv h
    · exact ih tv h
    · refine ih (tv ++ [x]) ?_
      push_neg at h1
      simp only [List.nodup_append, List.nodup_singleton]
      exact ⟨h, by simp, by simpa using h1.2⟩

/-- `processFetched` either leaves the frontier unchanged or extends it
with the enqueue loop over the freshly extracted links. -/
theorem processFetched_toVisit_cases (env : Env) (s : CState) (url html : String) :
    (processFetched env s url html).toVisit = s.toVisit ∨
    (processFetched env s url html).toVisit =
      enqueueLinks s.visited s.toVisit (extract_links env html url) := by
  simp only [processFetched]
  cases extract_content env html url with
  | none => exact Or.inl rfl
  | some pr =>
    dsimp only
    split_ifs
    · exact Or.inl rfl
    · exact Or.inr rfl
    · exact Or.inl rfl

/-- One iteration either just pops the frontier head or pops it and
runs the enqueue loop (against the updated visited set) over the links
extracted from the accepted page. -/
theorem crawlIter_toVisit_cases (env : Env) (s : CState) :
    (crawlIter env s).toVisit = s.toVisit.tail ∨
    ∃ links, (crawlIter env s).toVisit =
      enqueueLinks (crawlIter env s).visited s.toVisit.tail links := by
  rcases htv : s.toVisit with _ | ⟨u, rest⟩
  · exact Or.inl (by simp [crawlIter, htv])
  · simp only [crawlIter, htv]
    split_ifs with h1 h2 h3 h4
    · exact Or.inl rfl
    · exact Or.inl rfl
    · rcases processFetched_toVisit_cases env _ (normalize_url env.codec u)
          ((fetchHtml env (normalize_url env.codec u)).1.getD "") with h | h
      · refine Or.inl ?_
        rw [h]
        simp [afterPop]
      · refine Or.inr
          ⟨extract_links env ((fetchHtml env (normalize_url env.codec u)).1.getD "")
            (normalize_url env.codec u), ?_⟩
        rw [h, processFetched_visited]
        simp [afterPop]
    · exact Or.inl rfl
    · exact Or.inl rfl

/-- C6: frontier discipline.  In any crawl run, no URL is ever marked
visited twice, the frontier never holds duplicates, every dequeued URL
(traced as a pop) of the crawl's domain ends up in the visited set —
hence, being in a duplicate-free set, is visited exactly once — and the
enqueue loop leaves the multiplicity of any URL already visited or
already pending unchanged (the membership check before every push). -/
theorem C6_frontier_once (env : Env) (m : Nat) :
    (crawl env m (initSt env)).visited.Nodup ∧
    (crawl env m (initSt env)).toVisit.Nodup ∧
    (∀ u, Ev.pop u ∈ (crawl env m (initSt env)).trace →
      u ∈ (crawl env m (initSt env)).visited ∨
        same_domain u (baseOf env) = false) ∧
    (∀ visited tv links l, l ∈ visited ∨ l ∈ tv →
      List.count l (enqueueLinks visited tv links) = List.count l tv) := by
  have main := crawl_inv env m
    (fun st => st.visited.Nodup ∧ st.toVisit.Nodup ∧
      (∀ u, Ev.pop u ∈ st.trace →
        u ∈ st.visited ∨ same_domain u (baseOf env) = false))
    ?_ (initSt env) ⟨by simp [initSt], by simp [initSt], by simp [initSt]⟩
  · exact ⟨main.1, main.2.1, main.2.2, fun v tv links l h =>
      enqueueLinks_count v links tv l h⟩
  · intro s _ _ hP
    obtain ⟨hV, hT, hPp⟩ := hP
    have hmono := crawlIter_visited_mono env s
    refine ⟨?_, ?_, ?_⟩
    · rcases crawlIter_visited_cases env s with h | ⟨u, rest, _, hnv, h⟩
      · rw [h]; exact hV
      · rw [h]
        simp only [List.nodup_append, List.nodup_singleton]
        exact ⟨hV, by simp, by simpa using hnv⟩
    · rcases crawlIter_toVisit_cases env s with h | ⟨links, h⟩
      · rw [h]; exact hT.sublist (List.tail_sublist _)
      · rw [h]
        exact enqueueLinks_nodup _ links _ (hT.sublist (List.tail_sublist _))
    · intro u hu
      obtain ⟨evs, htr, _, _, _, hepop⟩ := crawlIter_trace_cases env s
      rw [htr] at hu
      rcases List.mem_append.1 hu with hu | hu
      · rcases hPp u hu with h | h
        · exact Or.inl (hmono h)
        · exact Or.inr h
      · exact hepop u hu

/-- C6 witness: concrete instances — the visited set of the concrete
run is duplicate-free, and enqueueing a link that is already pending or
already visited does not change its multiplicity. -/
theorem C6_frontier_once_witness :
    (crawl envW 500 (initSt envW)).visited.Nodup ∧
    List.count "https://x.edu/a"
        (enqueueLinks ["https://x.edu/a"] ["https://x.edu/b"]
          ["https://x.edu/a", "https://x.edu/b", "https://x.edu/c"]) =
      List.count "https://x.edu/a" ["https://x.edu/b"] :=
  ⟨(C6_frontier_once envW 500).1,
   (C6_frontier_once envW 500).2.2.2 ["https://x.edu/a"] ["https://x.edu/b"]
     ["https://x.edu/a", "https://x.edu/b", "https://x.edu/c"]
     "https://x.edu/a" (Or.inl (by decide))⟩

/-- The per-page dedup loop at the end of `extract_links` returns a
duplicate-free list. -/
theorem extract_links_nodup (env : Env) (html b : String) :
    (extract_links env html b).Nodup := by
  simp only [extract_links]
  generalize ((env.anchors html).filterMap _) = links
  have gen : ∀ (ls acc : List String), acc.Nodup →
      (ls.foldl (fun uniq l =>
        if l ∉ uniq ∧ same_domain l (baseOf env) = true then uniq ++ [l]
        else uniq) acc).Nodup := by
    intro ls
    induction ls with
    | nil => intro acc h; exact h
    | cons x t ih =>
      intro acc h
      simp only [List.foldl_cons]
      split_ifs with hx
      · refine ih _ ?_
        simp only [List.nodup_append, List.nodup_singleton]
        exact ⟨h, by simp, by simpa using hx.1⟩
      · exact ih _ h
  exact gen links [] (by simp)

/-- C8 counterexample: `extract_links` returns a link to an
administrative panel (`/wp-admin/...`) unfiltered — the non-content
pattern exclusion does not happen in the Link Extractor. -/
theorem C8_links_counterexample :
    extract_links envL "L" "https://x.edu/page" =
      ["https://x.edu/wp-admin/install.php"] ∧
    badPattern "https://x.edu/wp-admin/install.php" = true := by
  constructor
  · decide
  · decide

/-- C8 (amended): the link set returned by `extract_links` contains no
duplicates, but the known non-content pattern exclusion
(administrative panels, asset directories, syndication feeds, search
query pages) is applied by the crawl loop's enqueue step rather than by
the Link Extractor: a pattern-matching link is never enqueued, so the
frontier of a crawl whose seed is pattern-free never contains one. -/
theorem C8_links_amended (env : Env) (m : Nat) :
    (∀ html b, (extract_links env html b).Nodup) ∧
    (∀ visited tv links l, badPattern l = true → l ∉ tv →
      l ∉ enqueueLinks visited tv links) ∧
    ((∀ l ∈ (initSt env).toVisit, badPattern l = false) →
      ∀ l ∈ (crawl env m (initSt env)).toVisit, badPattern l = false) := by
  refine ⟨fun html b => extract_links_nodup env html b, ?_, ?_⟩
  · intro visited tv links l hbad htv hmem
    rcases enqueueLinks_mem visited links tv l hmem with h | h
    · exact htv h
    · rw [h.1] at hbad; cases hbad
  · intro hinit
    refine crawl_inv env m (fun st => ∀ l ∈ st.toVisit, badPattern l = false)
      ?_ (initSt env) hinit
    intro s _ _ hP l hl
    rcases crawlIter_toVisit_cases env s with h | ⟨links, h⟩
    · rw [h] at hl
      exact hP l (List.mem_of_mem_tail hl)
    · rw [h] at hl
      rcases enqueueLinks_mem _ links _ l hl with hm | hm
      · exact hP l (List.mem_of_mem_tail hm)
      · exact hm.1

/-- C8 amended witness: a pattern-matching link that is neither visited
nor pending is not enqueued. -/
theorem C8_links_amended_witness :
    badPattern "https://x.edu/wp-admin/install.php" = true ∧
    "https://x.edu/wp-admin/install.php" ∉
      enqueueLinks ([] : List String) ([] : List String)
        ["https://x.edu/wp-admin/install.php"] :=
  ⟨by decide,
   (C8_links_amended envW 500).2.1 [] [] ["https://x.edu/wp-admin/install.php"]
     "https://x.edu/wp-admin/install.php" (by decide) (by decide)⟩

/-- C9 counterexample: a run that accepts zero records (every fetch
fails) completes normally, yet `save_aggregate` writes nothing — the
aggregate file is not written at the end of every run. -/
theorem C9_aggregate_counterexample :
    (crawl envE 500 (initSt envE)).records = [] ∧
    runMain (CrawlOutcome.ok (crawl envE 500 (initSt envE))) =
      { aggWrites := [none], reraised := false } := by
  constructor
  · rw [runE_eval]; decide
  · rw [runE_eval]; decide

/-- C9 (amended): `save_aggregate` is invoked exactly once on every exit
path of `main` — normal completion, `KeyboardInterrupt`, and an
unhandled exception during the crawl loop (a best-effort flush before
the exception is re-raised) — and that single invocation writes the
aggregate JSON array of all accepted records if and only if at least
one record was accepted; a run with zero accepted records writes no
aggregate file (it logs a warning and returns). -/
theorem C9_aggregate_amended (oc : CrawlOutcome) :
    (runMain oc).aggWrites.length = 1 ∧
    (∀ st : CState,
      (oc = CrawlOutcome.ok st ∨ oc = CrawlOutcome.interrupted st ∨
        oc = CrawlOutcome.failed st) →
      (st.records ≠ [] → (runMain oc).aggWrites = [some st.records]) ∧
      (st.records = [] → (runMain oc).aggWrites = [none])) ∧
    ((runMain oc).reraised = true ↔ ∃ st, oc = CrawlOutcome.failed st) := by
  rcases oc with st | st | st <;>
    refine ⟨rfl, ?_, ?_⟩ <;>
    simp only [runMain]
  · intro st2 h2
    have : st2 = st := by
      rcases h2 with h2 | h2 | h2 <;> cases h2 <;> rfl
    subst this
    constructor
    · intro hne
      simp [save_aggregate, hne]
    · intro he
      simp [save_aggregate, he]
  · constructor
    · intro h; simp at h
    · intro ⟨st2, h⟩; cases h
  · intro st2 h2
    have : st2 = st := by
      rcases h2 with h2 | h2 | h2 <;> cases h2 <;> rfl
    subst this
    constructor
    · intro hne
      simp [save_aggregate, hne]
    · intro he
      simp [save_aggregate, he]
  · constructor
    · intro h; simp at h
    · intro ⟨st2, h⟩; cases h
  · intro st2 h2
    have : st2 = st := by
      rcases h2 with h2 | h2 | h2 <;> cases h2 <;> rfl
    subst this
    constructor
    · intro hne
      simp [save_aggregate, hne]
    · intro he
      simp [save_aggregate, he]
  · exact ⟨fun _ => ⟨st, rfl⟩, fun _ => trivial⟩

/-- C9 amended witness: an exception-terminated run with one accepted
record flushes exactly that aggregate once before re-raising. -/
theorem C9_aggregate_amended_witness :
    (runMain (CrawlOutcome.failed (crawl envW 500 (initSt envW)))).aggWrites =
      [some (crawl envW 500 (initSt envW)).records] ∧
    (runMain (CrawlOutcome.failed (crawl envW 500 (initSt envW)))).reraised = true :=
  ⟨((C9_aggregate_amended (CrawlOutcome.failed (crawl envW 500 (initSt envW)))).2.1
      (crawl envW 500 (initSt envW)) (Or.inr (Or.inr rfl))).1
      (by rw [runW_eval]; decide),
   rfl⟩

/-- C10: the initial frontier holds exactly one URL — the normalized
form of the rstripped configured base URL with "/events/" appended; with
the default production base URL this is "https://giki.edu.pk/events",
which differs from the normalized base URL itself, so the crawl starts
at the events page rather than the site root. -/
theorem C10_seed_events (env : Env) :
    (initSt env).toVisit =
      [normalize_url env.codec (baseOf env ++ "/events/")] ∧
    (initSt envG).toVisit = ["https://giki.edu.pk/events"] ∧
    normalize_url envG.codec envG.base_url = "https://giki.edu.pk/" ∧
    (initSt envG).toVisit ≠ [normalize_url envG.codec envG.base_url] := by
  refine ⟨rfl, by decide, by decide, by decide⟩

/-! ### Character-level toolbox for the normalizer development -/

/-- `splitFirst` finds nothing exactly when the separator is absent. -/
theorem splitFirst_eq_none_iff (sep : Char) (l : List Char) :
    splitFirst sep l = none ↔ sep ∉ l := by
  induction l with
  | nil => simp [splitFirst]
  | cons c cs ih =>
    rw [splitFirst]
    split_ifs with h
    · subst h; simp
    · rcases hs : splitFirst sep cs with _ | p <;> rw [hs] at ih <;>
        simp_all [eq_comm]

/-- `splitFirst` at an explicitly placed first separator. -/
theorem splitFirst_append_sep (sep : Char) (a b : List Char) (ha : sep ∉ a) :
    splitFirst sep (a ++ sep :: b) = some (a, b) := by
  induction a with
  | nil => simp [splitFirst]
  | cons c cs ih =>
    rw [List.cons_append, splitFirst,
      if_neg (by intro hh; subst hh; exact ha (List.mem_cons_self _ _))]
    rw [ih (fun hm => ha (List.mem_cons_of_mem c hm))]
    rfl

/-- Inversion for a successful `splitFirst`. -/
theorem splitFirst_eq_some (sep : Char) : ∀ (l x y : List Char),
    splitFirst sep l = some (x, y) → l = x ++ sep :: y ∧ sep ∉ x := by
  intro l
  induction l with
  | nil => intro x y h; simp [splitFirst] at h
  | cons c cs ih =>
    intro x y h
    rw [splitFirst] at h
    split_ifs at h with hc
    · subst hc
      injection h with h2
      rw [Prod.mk.injEq] at h2
      obtain ⟨rfl, rfl⟩ := h2
      exact ⟨rfl, by simp⟩
    · rcases hs : splitFirst sep cs with _ | ⟨a, b⟩ <;> rw [hs] at h
      · simp at h
      · rw [Option.map_some'] at h
        injection h with h2
        rw [Prod.mk.injEq] at h2
        obtain ⟨rfl, rfl⟩ := h2
        obtain ⟨ha2, hb⟩ := ih a b hs
        refine ⟨by rw [ha2]; rfl, ?_⟩
        intro hm
        rcases List.mem_cons.1 hm with hm | hm
        · exact hc hm.symm
        · exact hb hm

/-- `splitAll` on a separator-free chunk. -/
theorem splitAll_of_not_mem (sep : Char) (x : List Char) (h : sep ∉ x) :
    splitAll sep x = [x] := by
  induction x with
  | nil => rfl
  | cons c cs ih =>
    rw [splitAll, if_neg (by intro hh; subst hh; exact h (List.mem_cons_self _ _))]
    rw [ih (fun hm => h (List.mem_cons_of_mem _ hm))]

/-- `splitAll` across the first separator. -/
theorem splitAll_append_sep (sep : Char) (x y : List Char) (hx : sep ∉ x) :
    splitAll sep (x ++ sep :: y) = x :: splitAll sep y := by
  induction x with
  | nil => simp [splitAll]
  | cons c cs ih =>
    rw [List.cons_append, splitAll,
      if_neg (by intro hh; subst hh; exact hx (List.mem_cons_self _ _))]
    rw [ih (fun hm => hx (List.mem_cons_of_mem _ hm))]

/-- `takeWhile` passes over a block of satisfying elements. -/
theorem takeWhile_append_all (p : Char → Bool) (a : List Char)
    (ha : ∀ x ∈ a, p x = true) :
    ∀ b, (a ++ b).takeWhile p = a ++ b.takeWhile p := by
  induction a with
  | nil => intro b; rfl
  | cons c cs ih =>
    intro b
    rw [List.cons_append, List.takeWhile_cons,
      if_pos (ha c (List.mem_cons_self _ _)), ih (fun x hx => ha x (List.mem_cons_of_mem _ hx))]
    rfl

/-- `dropWhile` passes over a block of satisfying elements. -/
theorem dropWhile_append_all (p : Char → Bool) (a : List Char)
    (ha : ∀ x ∈ a, p x = true) :
    ∀ b, (a ++ b).dropWhile p = b.dropWhile p := by
  induction a with
  | nil => intro b; rfl
  | cons c cs ih =>
    intro b
    rw [List.cons_append, List.dropWhile_cons,
      if_pos (ha c (List.mem_cons_self _ _)), ih (fun x hx => ha x (List.mem_cons_of_mem _ hx))]

/-- A `dropWhile` result is empty or starts with a failing element. -/
theorem dropWhile_eq_nil_or_head_false (p : Char → Bool) (l : List Char) :
    l.dropWhile p = [] ∨
      ∃ h t, l.dropWhile p = h :: t ∧ p h = false := by
  induction l with
  | nil => exact Or.inl rfl
  | cons c cs ih =>
    rw [List.dropWhile_cons]
    split_ifs with h
    · exact ih
    · exact Or.inr ⟨c, cs, rfl, by simpa using h⟩

/-- `dropWhile` is idempotent. -/
theorem dropWhile_idem (p : Char → Bool) (l : List Char) :
    (l.dropWhile p).dropWhile p = l.dropWhile p := by
  rcases dropWhile_eq_nil_or_head_false p l with h | ⟨c, t, h, hc⟩
  · rw [h]; rfl
  · rw [h, List.dropWhile_cons, if_neg (by simp [hc])]

/-- `rstripSlash` is idempotent. -/
theorem rstripSlash_idem (l : List Char) :
    rstripSlash (rstripSlash l) = rstripSlash l := by
  simp only [rstripSlash, List.reverse_reverse]
  rw [dropWhile_idem]

/-- `rstripSlash` only keeps characters of its input. -/
theorem rstripSlash_subset (l : List Char) : rstripSlash l ⊆ l := by
  intro x hx
  simp only [rstripSlash, List.mem_reverse] at hx
  have := (List.dropWhile_sublist (l := l.reverse) (p := (· = '/'))).subset hx
  simpa using this

/-- `rstripSlash` is a prefix of its input. -/
theorem rstripSlash_pref (l : List Char) : rstripSlash l <+: l := by
  have h : (l.reverse.dropWhile (· = '/')) <:+ l.reverse :=
    List.dropWhile_suffix _
  have h2 := List.reverse_prefix.2 h
  simpa using h2

/-- A nonempty prefix shares the head. -/
theorem prefix_head? (p l : List Char) (hp : p <+: l) (hne : p ≠ []) :
    p.head? = l.head? := by
  obtain ⟨t, rfl⟩ := hp
  cases p with
  | nil => exact absurd rfl hne
  | cons c cs => rfl

/-- Character order agrees with code point order. -/
theorem char_le_iff_toNat (a b : Char) : a ≤ b ↔ a.toNat ≤ b.toNat := by
  rw [Char.le_def, UInt32.le_def, BitVec.le_def]
  exact Iff.rfl

/-- Code point of `Char.ofNat` below the surrogate range. -/
theorem char_toNat_ofNat (n : Nat) (h : n < 55296) : (Char.ofNat n).toNat = n := by
  rw [Char.ofNat, dif_pos (Or.inl h)]
  rfl

/-- Lower-casing an upper-case letter shifts its code point by 32. -/
theorem lowerC_upper_toNat (c : Char) (h : 'A' ≤ c ∧ c ≤ 'Z') :
    (lowerC c).toNat = c.toNat + 32 := by
  have h65 := (char_le_iff_toNat 'A' c).1 h.1
  have hA : ('A' : Char).toNat = 65 := rfl
  have h90 := (char_le_iff_toNat c 'Z').1 h.2
  have hZ : ('Z' : Char).toNat = 90 := rfl
  rw [lowerC, if_pos h]
  exact char_toNat_ofNat _ (by omega)

/-- ASCII lower-casing is idempotent. -/
theorem lowerC_idem (c : Char) : lowerC (lowerC c) = lowerC c := by
  by_cases h : 'A' ≤ c ∧ c ≤ 'Z'
  · have ht := lowerC_upper_toNat c h
    have h65 := (char_le_iff_toNat 'A' c).1 h.1
    have hA : ('A' : Char).toNat = 65 := rfl
    have hZ : ('Z' : Char).toNat = 90 := rfl
    have hd1 : ¬('A' ≤ lowerC c ∧ lowerC c ≤ 'Z') := by
      intro hcon
      have h2 := (char_le_iff_toNat (lowerC c) 'Z').1 hcon.2
      rw [ht] at h2
      omega
    conv_lhs => rw [lowerC]
    rw [if_neg hd1]
  · have hc : lowerC c = c := by rw [lowerC, if_neg h]
    rw [hc]
    exact hc

/-- ASCII lower-casing preserves letterhood. -/
theorem lowerC_alpha (c : Char) (h : asciiAlpha c = true) :
    asciiAlpha (lowerC c) = true := by
  simp only [asciiAlpha, Bool.or_eq_true, Bool.and_eq_true, decide_eq_true_eq] at h ⊢
  by_cases hU : 'A' ≤ c ∧ c ≤ 'Z'
  · have ht := lowerC_upper_toNat c hU
    have h65 := (char_le_iff_toNat 'A' c).1 hU.1
    have h90 := (char_le_iff_toNat c 'Z').1 hU.2
    have hA : ('A' : Char).toNat = 65 := rfl
    have hZ : ('Z' : Char).toNat = 90 := rfl
    have ha2 : ('a' : Char).toNat = 97 := rfl
    have hz2 : ('z' : Char).toNat = 122 := rfl
    left
    constructor
    · rw [char_le_iff_toNat, ht]; omega
    · rw [char_le_iff_toNat, ht]; omega
  · have hc : lowerC c = c := by rw [lowerC, if_neg hU]
    rw [hc]
    exact h

/-- ASCII lower-casing preserves scheme-character membership. -/
theorem lowerC_schemeChar (c : Char) (h : schemeChar c = true) :
    schemeChar (lowerC c) = true := by
  simp only [schemeChar, Bool.or_eq_true, Bool.and_eq_true, decide_eq_true_eq] at h ⊢
  by_cases hU : 'A' ≤ c ∧ c ≤ 'Z'
  · have ht := lowerC_upper_toNat c hU
    have h65 := (char_le_iff_toNat 'A' c).1 hU.1
    have h90 := (char_le_iff_toNat c 'Z').1 hU.2
    have hA : ('A' : Char).toNat = 65 := rfl
    have hZ : ('Z' : Char).toNat = 90 := rfl
    have ha2 : ('a' : Char).toNat = 97 := rfl
    have hz2 : ('z' : Char).toNat = 122 := rfl
    have hgoal : 'a' ≤ lowerC c ∧ lowerC c ≤ 'z' := by
      constructor
      · rw [char_le_iff_toNat, ht]; omega
      · rw [char_le_iff_toNat, ht]; omega
    exact Or.inl (Or.inl (Or.inl (Or.inl (Or.inl hgoal))))
  · have hc : lowerC c = c := by rw [lowerC, if_neg hU]
    rw [hc]
    exact h

/-- A scheme character is none of the URL delimiter characters. -/
theorem schemeChar_not_delim (c : Char) (h : schemeChar c = true) :
    c ≠ ':' ∧ c ≠ '/' ∧ c ≠ '?' ∧ c ≠ '#' := by
  refine ⟨?_, ?_, ?_, ?_⟩ <;> (intro hc; subst hc; simp [schemeChar] at h)

/-- `lowerL` is idempotent. -/
theorem lowerL_idem (l : List Char) : lowerL (lowerL l) = lowerL l := by
  induction l with
  | nil => rfl
  | cons c cs ih =>
    simp only [lowerL, List.map_cons] at ih ⊢
    rw [lowerC_idem]
    rw [show List.map lowerC (List.map lowerC cs) = List.map lowerC cs from ih]

/-- `lowerL` preserves all-scheme-characters. -/
theorem lowerL_all_schemeChar (l : List Char) (h : l.all schemeChar = true) :
    (lowerL l).all schemeChar = true := by
  rw [List.all_eq_true] at h ⊢
  intro x hx
  rw [lowerL, List.mem_map] at hx
  obtain ⟨c, hc, rfl⟩ := hx
  exact lowerC_schemeChar c (h c hc)

/-- Encoded query text never contains the fragment or query delimiter. -/
theorem urlencode_no_delim (cd : Codec) (hcd : CodecOK cd) :
    ∀ L, ∀ c ∈ urlencode cd L, c ≠ '#' ∧ c ≠ '?' := by
  intro L
  induction L with
  | nil => intro c hc; simp [urlencode] at hc
  | cons kv rest ih =>
    intro c hc
    cases rest with
    | nil =>
      simp only [urlencode] at hc
      rcases List.mem_append.1 hc with hc | hc
      · obtain ⟨_, _, h3, h4⟩ := hcd.2 kv.1 c hc
        exact ⟨h3, h4⟩
      · rcases List.mem_cons.1 hc with hc | hc
        · subst hc; exact ⟨by decide, by decide⟩
        · obtain ⟨_, _, h3, h4⟩ := hcd.2 kv.2 c hc
          exact ⟨h3, h4⟩
    | cons r rs =>
      simp only [urlencode] at hc
      rcases List.mem_append.1 hc with hc | hc
      · rcases List.mem_append.1 hc with hc | hc
        · obtain ⟨_, _, h3, h4⟩ := hcd.2 kv.1 c hc
          exact ⟨h3, h4⟩
        · rcases List.mem_cons.1 hc with hc | hc
          · subst hc; exact ⟨by decide, by decide⟩
          · obtain ⟨_, _, h3, h4⟩ := hcd.2 kv.2 c hc
            exact ⟨h3, h4⟩
      · rcases List.mem_cons.1 hc with hc | hc
        · subst hc; exact ⟨by decide, by decide⟩
        · exact ih c hc

/-- Decoding an encoded query recovers the pairs
(`parse_qsl(urlencode(L)) == L` under the codec laws). -/
theorem parse_qsl_urlencode (cd : Codec) (hcd : CodecOK cd) :
    ∀ L, parse_qsl cd (urlencode cd L) = L := by
  intro L
  induction L with
  | nil => rfl
  | cons kv rest ih =>
    have hknoeq : '=' ∉ cd.quote kv.1 := fun hm => ((hcd.2 kv.1 '=' hm).2.1) rfl
    have hfield_noamp : '&' ∉ cd.quote kv.1 ++ '=' :: cd.quote kv.2 := by
      intro hm
      rcases List.mem_append.1 hm with hm | hm
      · exact (hcd.2 kv.1 '&' hm).1 rfl
      · rcases List.mem_cons.1 hm with hm | hm
        · cases hm
        · exact (hcd.2 kv.2 '&' hm).1 rfl
    have hfield_ne : cd.quote kv.1 ++ '=' :: cd.quote kv.2 ≠ [] := by
      intro hnil
      have hm : ('=' : Char) ∈ cd.quote kv.1 ++ '=' :: cd.quote kv.2 :=
        List.mem_append_right _ (List.mem_cons_self _ _)
      rw [hnil] at hm
      simp at hm
    cases rest with
    | nil =>
      simp only [urlencode, parse_qsl]
      rw [splitAll_of_not_mem '&' _ hfield_noamp]
      simp only [List.filterMap_cons, List.filterMap_nil]
      rw [if_neg hfield_ne]
      rw [splitFirst_append_sep '=' _ _ hknoeq]
      simp [hcd.1]
    | cons r rs =>
      simp only [urlencode, parse_qsl] at ih ⊢
      rw [splitAll_append_sep '&' _ _ hfield_noamp]
      simp only [List.filterMap_cons]
      rw [if_neg hfield_ne]
      rw [splitFirst_append_sep '=' _ _ hknoeq]
      simp only [hcd.1, ih]

/-- The scheme component produced by `schemeSplit` is empty or a
lower-case-fixed ASCII-letter-initial run of scheme characters. -/
theorem schemeSplit_fst_valid (u : List Char) :
    (schemeSplit u).1 = [] ∨
      ∃ c cs, (schemeSplit u).1 = c :: cs ∧ asciiAlpha c = true ∧
        cs.all schemeChar = true ∧ lowerL (schemeSplit u).1 = (schemeSplit u).1 := by
  unfold schemeSplit
  rcases hs : splitFirst ':' u with _ | ⟨pre, post⟩
  · exact Or.inl rfl
  · rcases pre with _ | ⟨c, cs⟩
    · exact Or.inl rfl
    · dsimp only
      by_cases hcond : (asciiAlpha c && cs.all schemeChar) = true
      · rw [if_pos hcond]
        rw [Bool.and_eq_true] at hcond
        obtain ⟨h1, h2⟩ := hcond
        refine Or.inr ⟨lowerC c, lowerL cs, by simp [lowerL], lowerC_alpha c h1,
          lowerL_all_schemeChar cs h2, ?_⟩
        exact lowerL_idem (c :: cs)
      · rw [if_neg hcond]
        exact Or.inl rfl

/-- `schemeSplit` recovers a valid lower-case scheme spliced back in
front of a `:`. -/
theorem schemeSplit_recover (s R : List Char)
    (hs : ∃ c cs, s = c :: cs ∧ asciiAlpha c = true ∧
      cs.all schemeChar = true ∧ lowerL s = s) :
    schemeSplit (s ++ ':' :: R) = (s, R) := by
  obtain ⟨c, cs, rfl, h1, h2, h3⟩ := hs
  have hnot : ':' ∉ c :: cs := by
    intro hm
    rcases List.mem_cons.1 hm with hm | hm
    · rw [← hm] at h1
      exact absurd h1 (by decide)
    · have hsc := List.all_eq_true.1 h2 ':' hm
      exact absurd hsc (by decide)
  have hcond : (asciiAlpha c && cs.all schemeChar) = true := by rw [h1, h2]; rfl
  simp only [schemeSplit, splitFirst_append_sep ':' (c :: cs) R hnot]
  rw [if_pos hcond, h3]

/-- The per-character toy encoding avoids the reserved separators. -/
theorem toyQuoteChar_no_delim (c0 c : Char) (hc : c ∈ toyQuoteChar c0) :
    c ≠ '&' ∧ c ≠ '=' ∧ c ≠ '#' ∧ c ≠ '?' := by
  unfold toyQuoteChar at hc
  split_ifs at hc with h1 h2 h3 h4 h5 h6 h7
  · simp only [List.mem_singleton] at hc
    subst hc
    exact ⟨by decide, by decide, by decide, by decide⟩
  · simp at hc
    rcases hc with rfl | rfl | rfl <;> exact ⟨by decide, by decide, by decide, by decide⟩
  · simp at hc
    rcases hc with rfl | rfl | rfl <;> exact ⟨by decide, by decide, by decide, by decide⟩
  · simp at hc
    rcases hc with rfl | rfl | rfl <;> exact ⟨by decide, by decide, by decide, by decide⟩
  · simp at hc
    rcases hc with rfl | rfl | rfl <;> exact ⟨by decide, by decide, by decide, by decide⟩
  · simp at hc
    rcases hc with rfl | rfl | rfl <;> exact ⟨by decide, by decide, by decide, by decide⟩
  · simp at hc
    rcases hc with rfl | rfl | rfl <;> exact ⟨by decide, by decide, by decide, by decide⟩
  · simp only [List.mem_singleton] at hc
    subst hc
    exact ⟨h2, h3, h4, h5⟩

/-- `toyUnq` passes over an ordinary character. -/
theorem toyUnq_cons_plain (c : Char) (h1 : c ≠ '+') (h2 : c ≠ '%')
    (Q : List Char) : toyUnq (c :: Q) = c :: toyUnq Q := by
  rw [toyUnq.eq_def]
  split
  · rename_i heq
    exact absurd heq (by simp)
  · rename_i rest heq
    injection heq with hc _
    exact absurd hc h1
  · rename_i a b r2 heq
    injection heq with hc _
    exact absurd hc h2
  · rename_i c2 rest hne1 hne2 heq
    injection heq with hc hQ
    rw [hc, hQ]

/-- `toyUnq` decodes one `toyQuoteChar` block and continues. -/
theorem toyUnq_quoteChar (c : Char) (Q : List Char) :
    toyUnq (toyQuoteChar c ++ Q) = c :: toyUnq Q := by
  by_cases h1 : c = ' '
  · subst h1; simp [toyQuoteChar, toyUnq]
  · by_cases h2 : c = '&'
    · subst h2; simp [toyQuoteChar, toyUnq, toyDec]
    · by_cases h3 : c = '='
      · subst h3; simp [toyQuoteChar, toyUnq, toyDec]
      · by_cases h4 : c = '#'
        · subst h4; simp [toyQuoteChar, toyUnq, toyDec]
        · by_cases h5 : c = '?'
          · subst h5; simp [toyQuoteChar, toyUnq, toyDec]
          · by_cases h6 : c = '%'
            · subst h6; simp [toyQuoteChar, toyUnq, toyDec]
            · by_cases h7 : c = '+'
              · subst h7; simp [toyQuoteChar, toyUnq, toyDec]
              · have hqc : toyQuoteChar c = [c] := by
                  rw [toyQuoteChar, if_neg h1, if_neg h2, if_neg h3, if_neg h4,
                    if_neg h5, if_neg h6, if_neg h7]
                rw [hqc, List.singleton_append, toyUnq_cons_plain c h7 h6]

/-- The toy codec satisfies the codec laws. -/
theorem toyCodecOK : CodecOK toyCodec := by
  constructor
  · intro s
    induction s with
    | nil => rfl
    | cons c rest ih =>
      show toyUnq (toyQuoteChar c ++ toyQuote rest) = c :: rest
      rw [toyUnq_quoteChar]
      rw [show toyUnq (toyQuote rest) = rest from ih]
  · intro s c hc
    induction s with
    | nil => exact absurd hc (by simp [toyCodec, toyQuote])
    | cons c0 rest ih =>
      have hc2 : c ∈ toyQuoteChar c0 ++ toyQuote rest := hc
      rcases List.mem_append.1 hc2 with hc3 | hc3
      · exact toyQuoteChar_no_delim c0 c hc3
      · exact ih hc3

/-- `takeWhile (· ≠ sep)` is the identity when the separator is absent. -/
theorem takeWhile_ne_self (sep : Char) (l : List Char) (h : sep ∉ l) :
    l.takeWhile (fun c => c ≠ sep) = l := by
  induction l with
  | nil => rfl
  | cons c cs ih =>
    have hcne : c ≠ sep := by
      intro e
      exact h (e ▸ List.mem_cons_self c cs)
    rw [List.takeWhile_cons, if_pos (decide_eq_true hcne),
      ih (fun hm => h (List.mem_cons_of_mem c hm))]

/-- The prefix returned by `splitFirst` is the maximal separator-free
prefix. -/
theorem splitFirst_fst_takeWhile (sep : Char) (l a b : List Char)
    (h : splitFirst sep l = some (a, b)) :
    a = l.takeWhile (fun c => c ≠ sep) := by
  obtain ⟨hl, hna⟩ := splitFirst_eq_some sep l a b h
  subst hl
  have ha : ∀ x ∈ a, (fun c => decide (c ≠ sep)) x = true := by
    intro x hx
    exact decide_eq_true (fun e => hna (e ▸ hx))
  rw [takeWhile_append_all (fun c => decide (c ≠ sep)) a ha]
  rw [List.takeWhile_cons, if_neg (by simp)]
  simp

/-- The separator never survives its own `takeWhile` filter. -/
theorem sep_not_mem_takeWhile (sep : Char) (l : List Char) :
    sep ∉ l.takeWhile (fun c => c ≠ sep) := by
  intro hm
  have := List.mem_takeWhile_imp hm
  simp at this

/-- The path carved out of the post-netloc text by the fragment and query
splits contains neither delimiter and keeps the head of that text. -/
theorem path_component_facts (rest1 p : List Char)
    (hp : p = (rest1.takeWhile (fun c => c ≠ '#')).takeWhile (fun c => c ≠ '?')) :
    '#' ∉ p ∧ '?' ∉ p ∧ (p ≠ [] → p.head? = rest1.head?) := by
  subst hp
  refine ⟨?_, sep_not_mem_takeWhile '?' _, ?_⟩
  · intro hm
    have h1 := ( List.takeWhile_prefix _).subset hm
    exact sep_not_mem_takeWhile '#' rest1 h1
  · intro hne
    exact prefix_head? _ _ (( List.takeWhile_prefix _).trans ( List.takeWhile_prefix _)) hne

/-- Members of the netloc block carved out by `splitnetloc` avoid the
three delimiters. -/
theorem netloc_mem_facts (X : List Char) (c : Char)
    (hcm : c ∈ X.takeWhile (fun c => ¬(c = '/' || c = '?' || c = '#'))) :
    c ≠ '/' ∧ c ≠ '?' ∧ c ≠ '#' := by
  have h := List.mem_takeWhile_imp hcm
  simp at h
  exact ⟨h.1.1, h.1.2, h.2⟩

/-- A nonempty delimiter-free path cut from the remainder of
`splitnetloc` starts with a slash. -/
theorem path_head_slash (X rest1 p : List Char)
    (hr1 : rest1 = X.dropWhile (fun c => ¬(c = '/' || c = '?' || c = '#')))
    (hp1 : '#' ∉ p) (hp2 : '?' ∉ p) (hph : p ≠ [] → p.head? = rest1.head?) :
    p = [] ∨ p.head? = some '/' := by
  by_cases hpe : p = []
  · exact Or.inl hpe
  · right
    rcases dropWhile_eq_nil_or_head_false
        (fun c => ¬(c = '/' || c = '?' || c = '#')) X with hnil | ⟨hd, t, hdw, hdf⟩
    · rw [hnil] at hr1
      have hh := hph hpe
      rw [hr1] at hh
      cases p with
      | nil => exact absurd rfl hpe
      | cons c0 ps => simp at hh
    · have hre : rest1 = hd :: t := hr1.trans hdw
      have hh := hph hpe
      rw [hre] at hh
      have hdopt : hd = '/' ∨ hd = '?' ∨ hd = '#' := by
        have h3 := hdf
        simp at h3
        tauto
      cases p with
      | nil => exact absurd rfl hpe
      | cons c0 ps =>
        simp only [List.head?_cons, Option.some.injEq] at hh
        subst hh
        rcases hdopt with rfl | rfl | rfl
        · rfl
        · exact absurd (List.mem_cons_self _ _) hp2
        · exact absurd (List.mem_cons_self _ _) hp1

/-- Structural facts about every successful `urlsplit`: the scheme is
empty or a lower-case-fixed valid scheme, the netloc avoids and balances
delimiters, the path contains no `#` or `?`, and a nonempty path under a
nonempty netloc starts with `/`. -/
theorem pyUrlsplit_ok_facts (u : List Char) (r : SplitRes)
    (h : pyUrlsplit u = .ok r) :
    (r.scheme = [] ∨ ∃ c cs, r.scheme = c :: cs ∧ asciiAlpha c = true ∧
      cs.all schemeChar = true ∧ lowerL r.scheme = r.scheme) ∧
    (∀ c ∈ r.netloc, c ≠ '/' ∧ c ≠ '?' ∧ c ≠ '#') ∧
    ((('[' ∈ r.netloc && ']' ∉ r.netloc) || (']' ∈ r.netloc && '[' ∉ r.netloc)) = false) ∧
    '#' ∉ r.path ∧ '?' ∉ r.path ∧
    (r.netloc ≠ [] → r.path = [] ∨ r.path.head? = some '/') := by
  have hs0full := schemeSplit_fst_valid u
  rcases hss : schemeSplit u with ⟨s0, rest0⟩
  rw [hss] at hs0full
  rw [pyUrlsplit, hss] at h
  dsimp only at h hs0full
  by_cases h2 : List.take 2 rest0 = ['/', '/']
  · rw [if_pos h2] at h
    rcases hsn : splitnetloc (List.drop 2 rest0) with ⟨nl, rest1⟩
    rw [hsn] at h
    dsimp only at h
    rw [splitnetloc, Prod.mk.injEq] at hsn
    obtain ⟨hnl, hr1⟩ := hsn
    split_ifs at h with hbr
    rcases hf : splitFirst '#' rest1 with _ | ⟨a1, b1⟩
    · rw [hf] at h
      dsimp only at h
      rcases hq : splitFirst '?' rest1 with _ | ⟨a2, b2⟩
      · rw [hq] at h
        dsimp only at h
        try rw [Except.ok.injEq] at h
        subst h
        have hpeq : rest1 =
            (rest1.takeWhile (fun c => c ≠ '#')).takeWhile (fun c => c ≠ '?') := by
          rw [takeWhile_ne_self '#' rest1 ((splitFirst_eq_none_iff '#' rest1).1 hf),
            takeWhile_ne_self '?' rest1 ((splitFirst_eq_none_iff '?' rest1).1 hq)]
        obtain ⟨hP1, hP2, hPh⟩ := path_component_facts rest1 _ hpeq
        refine ⟨hs0full, ?_, by simpa using hbr, hP1, hP2, ?_⟩
        · intro c hcm
          exact netloc_mem_facts _ c (hnl ▸ hcm)
        · intro _
          exact path_head_slash (List.drop 2 rest0) rest1 _ hr1.symm hP1 hP2 hPh
      · rw [hq] at h
        dsimp only at h
        try rw [Except.ok.injEq] at h
        subst h
        have hpeq : a2 =
            (rest1.takeWhile (fun c => c ≠ '#')).takeWhile (fun c => c ≠ '?') := by
          rw [takeWhile_ne_self '#' rest1 ((splitFirst_eq_none_iff '#' rest1).1 hf)]
          exact splitFirst_fst_takeWhile '?' rest1 a2 b2 hq
        obtain ⟨hP1, hP2, hPh⟩ := path_component_facts rest1 _ hpeq
        refine ⟨hs0full, ?_, by simpa using hbr, hP1, hP2, ?_⟩
        · intro c hcm
          exact netloc_mem_facts _ c (hnl ▸ hcm)
        · intro _
          exact path_head_slash (List.drop 2 rest0) rest1 _ hr1.symm hP1 hP2 hPh
    · rw [hf] at h
      dsimp only at h
      rcases hq : splitFirst '?' a1 with _ | ⟨a2, b2⟩
      · rw [hq] at h
        dsimp only at h
        try rw [Except.ok.injEq] at h
        subst h
        have hpeq : a1 =
            (rest1.takeWhile (fun c => c ≠ '#')).takeWhile (fun c => c ≠ '?') := by
          rw [← splitFirst_fst_takeWhile '#' rest1 a1 b1 hf]
          rw [takeWhile_ne_self '?' a1 ((splitFirst_eq_none_iff '?' a1).1 hq)]
        obtain ⟨hP1, hP2, hPh⟩ := path_component_facts rest1 _ hpeq
        refine ⟨hs0full, ?_, by simpa using hbr, hP1, hP2, ?_⟩
        · intro c hcm
          exact netloc_mem_facts _ c (hnl ▸ hcm)
        · intro _
          exact path_head_slash (List.drop 2 rest0) rest1 _ hr1.symm hP1 hP2 hPh
      · rw [hq] at h
        dsimp only at h
        try rw [Except.ok.injEq] at h
        subst h
        have hpeq : a2 =
            (rest1.takeWhile (fun c => c ≠ '#')).takeWhile (fun c => c ≠ '?') := by
          rw [← splitFirst_fst_takeWhile '#' rest1 a1 b1 hf]
          exact splitFirst_fst_takeWhile '?' a1 a2 b2 hq
        obtain ⟨hP1, hP2, hPh⟩ := path_component_facts rest1 _ hpeq
        refine ⟨hs0full, ?_, by simpa using hbr, hP1, hP2, ?_⟩
        · intro c hcm
          exact netloc_mem_facts _ c (hnl ▸ hcm)
        · intro _
          exact path_head_slash (List.drop 2 rest0) rest1 _ hr1.symm hP1 hP2 hPh
  · rw [if_neg h2] at h
    dsimp only at h
    split_ifs at h with hbr
    rcases hf : splitFirst '#' rest0 with _ | ⟨a1, b1⟩
    · rw [hf] at h
      dsimp only at h
      rcases hq : splitFirst '?' rest0 with _ | ⟨a2, b2⟩
      · rw [hq] at h
        dsimp only at h
        try rw [Except.ok.injEq] at h
        subst h
        have hpeq : rest0 =
            (rest0.takeWhile (fun c => c ≠ '#')).takeWhile (fun c => c ≠ '?') := by
          rw [takeWhile_ne_self '#' rest0 ((splitFirst_eq_none_iff '#' rest0).1 hf),
            takeWhile_ne_self '?' rest0 ((splitFirst_eq_none_iff '?' rest0).1 hq)]
        obtain ⟨hP1, hP2, hPh⟩ := path_component_facts rest0 _ hpeq
        exact ⟨hs0full, by simp, by simp, hP1, hP2, fun hne => absurd rfl hne⟩
      · rw [hq] at h
        dsimp only at h
        try rw [Except.ok.injEq] at h
        subst h
        have hpeq : a2 =
            (rest0.takeWhile (fun c => c ≠ '#')).takeWhile (fun c => c ≠ '?') := by
          rw [takeWhile_ne_self '#' rest0 ((splitFirst_eq_none_iff '#' rest0).1 hf)]
          exact splitFirst_fst_takeWhile '?' rest0 a2 b2 hq
        obtain ⟨hP1, hP2, hPh⟩ := path_component_facts rest0 _ hpeq
        exact ⟨hs0full, by simp, by simp, hP1, hP2, fun hne => absurd rfl hne⟩
    · rw [hf] at h
      dsimp only at h
      rcases hq : splitFirst '?' a1 with _ | ⟨a2, b2⟩
      · rw [hq] at h
        dsimp only at h
        try rw [Except.ok.injEq] at h
        subst h
        have hpeq : a1 =
            (rest0.takeWhile (fun c => c ≠ '#')).takeWhile (fun c => c ≠ '?') := by
          rw [← splitFirst_fst_takeWhile '#' rest0 a1 b1 hf]
          rw [takeWhile_ne_self '?' a1 ((splitFirst_eq_none_iff '?' a1).1 hq)]
        obtain ⟨hP1, hP2, hPh⟩ := path_component_facts rest0 _ hpeq
        exact ⟨hs0full, by simp, by simp, hP1, hP2, fun hne => absurd rfl hne⟩
      · rw [hq] at h
        dsimp only at h
        try rw [Except.ok.injEq] at h
        subst h
        have hpeq : a2 =
            (rest0.takeWhile (fun c => c ≠ '#')).takeWhile (fun c => c ≠ '?') := by
          rw [← splitFirst_fst_takeWhile '#' rest0 a1 b1 hf]
          exact splitFirst_fst_takeWhile '?' a1 a2 b2 hq
        obtain ⟨hP1, hP2, hPh⟩ := path_component_facts rest0 _ hpeq
        exact ⟨hs0full, by simp, by simp, hP1, hP2, fun hne => absurd rfl hne⟩

/-- `splitnetloc` recovers a delimiter-free netloc glued onto a
slash-initial remainder. -/
theorem splitnetloc_clean (n rest1 : List Char)
    (hn : ∀ c ∈ n, c ≠ '/' ∧ c ≠ '?' ∧ c ≠ '#')
    (hr1 : rest1.head? = some '/') :
    splitnetloc (n ++ rest1) = (n, rest1) := by
  induction n with
  | nil =>
    cases rest1 with
    | nil => simp at hr1
    | cons r0 rt =>
      simp only [List.head?_cons, Option.some.injEq] at hr1
      subst hr1
      simp [splitnetloc]
  | cons c0 ns ih =>
    have hmem : ∀ c ∈ ns, c ≠ '/' ∧ c ≠ '?' ∧ c ≠ '#' :=
      fun c hc => hn c (List.mem_cons_of_mem _ hc)
    obtain ⟨h1, h2, h3⟩ := hn c0 (List.mem_cons_self _ _)
    have ih2 := ih hmem
    simp only [splitnetloc, Prod.mk.injEq] at ih2 ⊢
    rw [List.cons_append, List.takeWhile_cons, List.dropWhile_cons]
    rw [if_pos (by simp [h1, h2, h3]), if_pos (by simp [h1, h2, h3])]
    exact ⟨by rw [ih2.1], ih2.2⟩

/-- `urlsplit` of a reassembled authority-form URL with clean
components. -/
theorem pyUrlsplit_build (s n rest1 p q : List Char)
    (hs : ∃ c cs, s = c :: cs ∧ asciiAlpha c = true ∧
      cs.all schemeChar = true ∧ lowerL s = s)
    (hn : ∀ c ∈ n, c ≠ '/' ∧ c ≠ '?' ∧ c ≠ '#')
    (hbr : ((('[' ∈ n && ']' ∉ n) || (']' ∈ n && '[' ∉ n)) = false))
    (hr1head : rest1.head? = some '/')
    (hf : splitFirst '#' rest1 = none)
    (hq : (q ≠ [] ∧ splitFirst '?' rest1 = some (p, q)) ∨
      (q = [] ∧ splitFirst '?' rest1 = none ∧ rest1 = p)) :
    pyUrlsplit (s ++ ':' :: '/' :: '/' :: (n ++ rest1)) = .ok ⟨s, n, p, q, []⟩ := by
  rw [pyUrlsplit, schemeSplit_recover s ('/' :: '/' :: (n ++ rest1)) hs]
  dsimp only
  rw [if_pos (show List.take 2 ('/' :: '/' :: (n ++ rest1)) = ['/', '/'] from rfl)]
  rw [show List.drop 2 ('/' :: '/' :: (n ++ rest1)) = n ++ rest1 from rfl]
  rw [splitnetloc_clean n rest1 hn hr1head]
  dsimp only
  rw [if_neg (by simpa using hbr)]
  rw [hf]
  dsimp only
  rcases hq with ⟨_, hqs⟩ | ⟨rfl, hqs, rfl⟩
  · rw [hqs]
  · rw [hqs]

/-- `urlsplit` of a reassembled authority-free URL with clean
components. -/
theorem pyUrlsplit_build_noauth (s rest1 p q : List Char)
    (hs : ∃ c cs, s = c :: cs ∧ asciiAlpha c = true ∧
      cs.all schemeChar = true ∧ lowerL s = s)
    (ht2 : rest1.take 2 ≠ ['/', '/'])
    (hf : splitFirst '#' rest1 = none)
    (hq : (q ≠ [] ∧ splitFirst '?' rest1 = some (p, q)) ∨
      (q = [] ∧ splitFirst '?' rest1 = none ∧ rest1 = p)) :
    pyUrlsplit (s ++ ':' :: rest1) = .ok ⟨s, [], p, q, []⟩ := by
  rw [pyUrlsplit, schemeSplit_recover s rest1 hs]
  dsimp only
  rw [if_neg ht2]
  dsimp only
  rw [if_neg (by simp)]
  rw [hf]
  dsimp only
  rcases hq with ⟨_, hqs⟩ | ⟨rfl, hqs, rfl⟩
  · rw [hqs]
  · rw [hqs]

/-- Round trip: `urlsplit` inverts `urlunsplit` on clean components (no
fragment, delimiter-free path and netloc, valid scheme, nonempty path
starting with `/` whenever a netloc is present). -/
theorem pyUrlsplit_unsplit (s n p q : List Char)
    (hs : ∃ c cs, s = c :: cs ∧ asciiAlpha c = true ∧
      cs.all schemeChar = true ∧ lowerL s = s)
    (hn : ∀ c ∈ n, c ≠ '/' ∧ c ≠ '?' ∧ c ≠ '#')
    (hbr : ((('[' ∈ n && ']' ∉ n) || (']' ∈ n && '[' ∉ n)) = false))
    (hp1 : '#' ∉ p) (hp2 : '?' ∉ p)
    (hq1 : ∀ c ∈ q, c ≠ '#')
    (hpne : p ≠ [])
    (hhead : n ≠ [] → p.head? = some '/') :
    pyUrlsplit (pyUrlunsplit s n p q []) = .ok ⟨s, n, p, q, []⟩ := by
  have hsne : s ≠ [] := by
    obtain ⟨c, cs, rfl, _⟩ := hs
    simp
  have hfneg : ¬(([] : List Char) ≠ []) := fun hcon => hcon rfl
  have hfragPQ : splitFirst '#' (p ++ '?' :: q) = none := by
    rw [splitFirst_eq_none_iff]
    intro hm
    rcases List.mem_append.1 hm with hm | hm
    · exact hp1 hm
    · rcases List.mem_cons.1 hm with hm | hm
      · exact absurd hm (by decide)
      · exact hq1 '#' hm rfl
  have hfragP : splitFirst '#' p = none := (splitFirst_eq_none_iff '#' p).2 hp1
  have hqPQ : splitFirst '?' (p ++ '?' :: q) = some (p, q) :=
    splitFirst_append_sep '?' p q hp2
  have hqP : splitFirst '?' p = none := (splitFirst_eq_none_iff '?' p).2 hp2
  by_cases hA : n ≠ [] ∨ List.take 2 p = ['/', '/']
  · have hph : p.head? = some '/' := by
      rcases hA with hne | ht2
      · exact hhead hne
      · cases p with
        | nil => exact absurd rfl hpne
        | cons c0 ps =>
          cases ps with
          | nil => simp at ht2
          | cons c1 ps2 =>
            simp at ht2
            simp [ht2.1]
    have hC1 : (decide (n ≠ []) || decide (List.take 2 p = ['/', '/'])) = true := by
      simpa using hA
    have hC2 : ¬((decide (p ≠ []) && decide (p.head? ≠ some '/')) = true) := by
      simp [hph]
    by_cases hqe : q = []
    · subst hqe
      have hU : pyUrlunsplit s n p [] [] = s ++ ':' :: '/' :: '/' :: (n ++ p) := by
        rw [pyUrlunsplit]
        rw [if_neg hfneg, if_neg hfneg, if_pos hsne, if_pos hC1, if_neg hC2]
        simp [List.append_assoc, List.cons_append]
      rw [hU]
      exact pyUrlsplit_build s n p p [] hs hn hbr hph hfragP (Or.inr ⟨rfl, hqP, rfl⟩)
    · have hU : pyUrlunsplit s n p q [] =
          s ++ ':' :: '/' :: '/' :: (n ++ (p ++ '?' :: q)) := by
        rw [pyUrlunsplit]
        rw [if_neg hfneg, if_pos hqe, if_pos hsne, if_pos hC1, if_neg hC2]
        simp [List.append_assoc, List.cons_append]
      rw [hU]
      have hheadPQ : (p ++ '?' :: q).head? = some '/' := by
        cases p with
        | nil => exact absurd rfl hpne
        | cons c0 ps => simpa using hph
      exact pyUrlsplit_build s n (p ++ '?' :: q) p q hs hn hbr hheadPQ hfragPQ
        (Or.inl ⟨hqe, hqPQ⟩)
  · push_neg at hA
    obtain ⟨hn0, ht2⟩ := hA
    subst hn0
    have hC1 : ¬((decide (([] : List Char) ≠ []) ||
        decide (List.take 2 p = ['/', '/'])) = true) := by
      simp [ht2]
    by_cases hqe : q = []
    · subst hqe
      have hU : pyUrlunsplit s [] p [] [] = s ++ ':' :: p := by
        rw [pyUrlunsplit]
        rw [if_neg hfneg, if_neg hfneg, if_pos hsne, if_neg hC1]
      rw [hU]
      exact pyUrlsplit_build_noauth s p p [] hs ht2 hfragP (Or.inr ⟨rfl, hqP, rfl⟩)
    · have hU : pyUrlunsplit s [] p q [] = s ++ ':' :: (p ++ '?' :: q) := by
        rw [pyUrlunsplit]
        rw [if_neg hfneg, if_pos hqe, if_pos hsne, if_neg hC1]
        simp [List.append_assoc, List.cons_append]
      rw [hU]
      have ht2' : List.take 2 (p ++ '?' :: q) ≠ ['/', '/'] := by
        cases p with
        | nil => exact absurd rfl hpne
        | cons c0 ps =>
          cases ps with
          | nil => simp
          | cons c1 ps2 =>
            intro hcon
            apply ht2
            simpa using hcon
      exact pyUrlsplit_build_noauth s (p ++ '?' :: q) p q hs ht2' hfragPQ
        (Or.inl ⟨hqe, hqPQ⟩)

/-- The path part returned by `_splitparams` is a prefix of its input. -/
theorem splitparams_fst_pref (p : List Char) : (splitparams p).1 <+: p := by
  rw [splitparams]
  rcases h1 : splitFirst '/' p.reverse with _ | ⟨rseg, rpre⟩
  · dsimp only
    rcases h2 : splitFirst ';' p with _ | ⟨a, b⟩
    · exact List.prefix_refl _
    · dsimp only
      obtain ⟨hp, _⟩ := splitFirst_eq_some ';' p a b h2
      exact ⟨';' :: b, hp.symm⟩
  · dsimp only
    rcases h2 : splitFirst ';' rseg.reverse with _ | ⟨a, b⟩
    · exact List.prefix_refl _
    · dsimp only
      obtain ⟨hrev, _⟩ := splitFirst_eq_some '/' p.reverse rseg rpre h1
      obtain ⟨hseg, _⟩ := splitFirst_eq_some ';' rseg.reverse a b h2
      refine ⟨';' :: b, ?_⟩
      have hp : p = rpre.reverse ++ '/' :: rseg.reverse := by
        have h3 := congrArg List.reverse hrev
        simpa [List.reverse_append] using h3
      rw [hp, hseg]
      simp

/-- `urlparse` of a reassembled clean URL whose path has no `;`:
no parameter splitting happens. -/
theorem pyUrlparse_unparse_clean (s n p q : List Char)
    (hs : ∃ c cs, s = c :: cs ∧ asciiAlpha c = true ∧
      cs.all schemeChar = true ∧ lowerL s = s)
    (hn : ∀ c ∈ n, c ≠ '/' ∧ c ≠ '?' ∧ c ≠ '#')
    (hbr : ((('[' ∈ n && ']' ∉ n) || (']' ∈ n && '[' ∉ n)) = false))
    (hp1 : '#' ∉ p) (hp2 : '?' ∉ p)
    (hq1 : ∀ c ∈ q, c ≠ '#')
    (hpne : p ≠ [])
    (hhead : n ≠ [] → p.head? = some '/')
    (hsemi : ';' ∉ p) :
    pyUrlparse (pyUrlunsplit s n p q []) = .ok ⟨s, n, p, [], q, []⟩ := by
  rw [pyUrlparse, pyUrlsplit_unsplit s n p q hs hn hbr hp1 hp2 hq1 hpne hhead]
  dsimp only
  have hcond : ¬((decide (s ∈ usesParams) && decide (';' ∈ p)) = true) := by
    simp [hsemi]
  rw [if_neg hcond]

/-- Inversion of `urlparse`: the underlying `urlsplit` succeeded and the
parse-level path is a prefix of the split-level path. -/
theorem pyUrlparse_inv (u : List Char) (r : ParseRes)
    (h : pyUrlparse u = .ok r) :
    ∃ r0 : SplitRes, pyUrlsplit u = .ok r0 ∧ r.scheme = r0.scheme ∧
      r.netloc = r0.netloc ∧ r.query = r0.query ∧ r.path <+: r0.path := by
  rw [pyUrlparse] at h
  rcases hsp : pyUrlsplit u with e | r0 <;> rw [hsp] at h
  · exact absurd h (by simp)
  · dsimp only at h
    refine ⟨r0, rfl, ?_⟩
    split_ifs at h with hcond
    · rcases hsp2 : splitparams r0.path with ⟨pa, pr⟩
      rw [hsp2] at h
      dsimp only at h
      try rw [Except.ok.injEq] at h
      rw [← h]
      refine ⟨rfl, rfl, rfl, ?_⟩
      have hpre := splitparams_fst_pref r0.path
      rw [hsp2] at hpre
      exact hpre
    · try rw [Except.ok.injEq] at h
      rw [← h]
      exact ⟨rfl, rfl, rfl, List.prefix_refl _⟩

/-- A URL already in the normalizer's output form (valid scheme,
slash-collapsed `;`-free path, tracking-filtered re-encoded query, no
fragment) is a fixed point of `normalize_url`. -/
theorem normalize_url_fixed (cd : Codec) (hcd : CodecOK cd) (s n p q : List Char)
    (hs : ∃ c cs, s = c :: cs ∧ asciiAlpha c = true ∧
      cs.all schemeChar = true ∧ lowerL s = s)
    (hn : ∀ c ∈ n, c ≠ '/' ∧ c ≠ '?' ∧ c ≠ '#')
    (hbr : ((('[' ∈ n && ']' ∉ n) || (']' ∈ n && '[' ∉ n)) = false))
    (hp1 : '#' ∉ p) (hp2 : '?' ∉ p) (hsemi : ';' ∉ p)
    (hpform : p = ['/'] ∨ (rstripSlash p = p ∧ p ≠ []))
    (hhead : n ≠ [] → p.head? = some '/')
    (hqform : ∃ L0, q = urlencode cd L0 ∧
      L0.filter (fun kv => ¬ isTrackingKey kv.1) = L0) :
    normalize_url cd (String.mk (pyUrlunsplit s n p q [])) =
      String.mk (pyUrlunsplit s n p q []) := by
  obtain ⟨L0, rfl, hL0⟩ := hqform
  have hq1 : ∀ c ∈ urlencode cd L0, c ≠ '#' :=
    fun c hc => (urlencode_no_delim cd hcd L0 c hc).1
  have hpne : p ≠ [] := by
    rcases hpform with rfl | ⟨_, hne⟩
    · simp
    · exact hne
  have htl : (String.mk (pyUrlunsplit s n p (urlencode cd L0) [])).toList
      = pyUrlunsplit s n p (urlencode cd L0) [] := rfl
  have hparse := pyUrlparse_unparse_clean s n p (urlencode cd L0)
    hs hn hbr hp1 hp2 hq1 hpne hhead hsemi
  have hsne : ¬(s = []) := by
    obtain ⟨c, cs, rfl, _⟩ := hs
    simp
  have hfneg : ¬(([] : List Char) ≠ []) := fun hcon => hcon rfl
  rw [normalize_url, htl, hparse]
  dsimp only
  rw [if_neg hsne, parse_qsl_urlencode cd hcd L0, hL0]
  rcases hpform with hpform | ⟨hfix, hne⟩
  · subst hpform
    rw [if_pos (show rstripSlash ['/'] = [] by decide)]
    rw [pyUrlunparse, if_neg hfneg]
  · have hnfix : ¬(rstripSlash p = []) := by
      rw [hfix]
      exact hne
    rw [if_neg hnfix, hfix, pyUrlunparse, if_neg hfneg]

/-- C7 (counterexample): `normalize_url` (lines 50-63) is NOT idempotent
for all inputs.  On `"https://h/a/;x/"` the first pass only strips the
trailing slash (the `;` sits in the last path segment's final position,
so `urlparse` finds no parameters to split), while the second pass sees
`"https://h/a/;x"`, splits `params = "x"`, strips the now-trailing slash
of `"/a/"`, and reassembles to `"https://h/a;x"`. -/
theorem C7_normalize_counterexample :
    normalize_url toyCodec "https://h/a/;x/" = "https://h/a/;x" ∧
    normalize_url toyCodec (normalize_url toyCodec "https://h/a/;x/") =
      "https://h/a;x" ∧
    normalize_url toyCodec (normalize_url toyCodec "https://h/a/;x/") ≠
      normalize_url toyCodec "https://h/a/;x/" := by
  refine ⟨by decide, by decide, by decide⟩

/-- C7 (amended): the URL normalizer is idempotent on every input whose
parse either fails (the input is returned unchanged) or yields a path
containing no `;` and no split-off params — in particular on every URL
whose path is free of semicolons.  `normalize_url(normalize_url(u)) =
normalize_url(u)` then holds for any codec satisfying the quote/unquote
laws (`giki_selenium.py`, lines 50-63). -/
theorem C7_normalize_idempotent_amended (cd : Codec) (hcd : CodecOK cd)
    (u : String)
    (H : pyUrlparse u.toList = Except.error () ∨
      ∃ r, pyUrlparse u.toList = Except.ok r ∧ ';' ∉ r.path ∧ r.params = []) :
    normalize_url cd (normalize_url cd u) = normalize_url cd u := by
  rcases H with herr | ⟨r, hok, hsemi, hparams⟩
  · have h1 : normalize_url cd u = u := by rw [normalize_url, herr]
    rw [h1]
    exact h1
  · obtain ⟨r0, hsp, hsch, hnet, hqry, hpref⟩ := pyUrlparse_inv u.toList r hok
    obtain ⟨hSch, hNmem, hNbr, hP1, hP2, hPhead⟩ := pyUrlsplit_ok_facts u.toList r0 hsp
    rw [← hsch] at hSch
    rw [← hnet] at hNbr hPhead
    have hrp1 : '#' ∉ r.path := fun hm => hP1 (hpref.subset hm)
    have hrp2 : '?' ∉ r.path := fun hm => hP2 (hpref.subset hm)
    have hfneg : ¬(([] : List Char) ≠ []) := fun hcon => hcon rfl
    have hv : normalize_url cd u = String.mk (pyUrlunsplit
        (if r.scheme = [] then "https".toList else r.scheme) r.netloc
        (if rstripSlash r.path = [] then ['/'] else rstripSlash r.path)
        (urlencode cd ((parse_qsl cd r.query).filter (fun kv => ¬ isTrackingKey kv.1)))
        []) := by
      rw [normalize_url, hok]
      dsimp only
      rw [hparams, pyUrlunparse, if_neg hfneg]
    rw [hv]
    refine normalize_url_fixed cd hcd _ _ _ _ ?_ ?_ ?_ ?_ ?_ ?_ ?_ ?_ ?_
    · by_cases hse : r.scheme = []
      · rw [if_pos hse]
        exact ⟨'h', ['t', 't', 'p', 's'], rfl, by decide, by decide, by decide⟩
      · rw [if_neg hse]
        rcases hSch with h0 | hval
        · exact absurd h0 hse
        · exact hval
    · intro c hc
      rw [hnet] at hc
      exact hNmem c hc
    · exact hNbr
    · by_cases hre : rstripSlash r.path = []
      · rw [if_pos hre]
        decide
      · rw [if_neg hre]
        exact fun hm => hrp1 (rstripSlash_subset r.path hm)
    · by_cases hre : rstripSlash r.path = []
      · rw [if_pos hre]
        decide
      · rw [if_neg hre]
        exact fun hm => hrp2 (rstripSlash_subset r.path hm)
    · by_cases hre : rstripSlash r.path = []
      · rw [if_pos hre]
        decide
      · rw [if_neg hre]
        exact fun hm => hsemi (rstripSlash_subset r.path hm)
    · by_cases hre : rstripSlash r.path = []
      · rw [if_pos hre]
        exact Or.inl rfl
      · rw [if_neg hre]
        exact Or.inr ⟨rstripSlash_idem r.path, hre⟩
    · intro hne
      rcases hPhead hne with h0 | hh
      · have hre : r.path = [] := List.prefix_nil.mp (h0 ▸ hpref)
        rw [if_pos (by rw [hre]; rfl)]
        rfl
      · by_cases hre : rstripSlash r.path = []
        · rw [if_pos hre]
          rfl
        · rw [if_neg hre]
          have hrne : r.path ≠ [] := by
            intro h1
            apply hre
            rw [h1]
            rfl
          have hh2 : r.path.head? = some '/' := by
            rw [prefix_head? r.path r0.path hpref hrne]
            exact hh
          rw [prefix_head? (rstripSlash r.path) r.path (rstripSlash_pref r.path) hre]
          exact hh2
    · exact ⟨(parse_qsl cd r.query).filter (fun kv => ¬ isTrackingKey kv.1), rfl,
        List.filter_eq_self.mpr (fun a ha => (List.mem_filter.mp ha).2)⟩

/-- C7 witness: the amended idempotence theorem applied to the toy codec
and the seed URL `https://giki.edu.pk/events/`, whose parse succeeds with
a semicolon-free path and empty params. -/
theorem C7_normalize_idempotent_amended_witness :
    CodecOK toyCodec ∧
    (∃ r, pyUrlparse "https://giki.edu.pk/events/".toList = Except.ok r ∧
      ';' ∉ r.path ∧ r.params = []) ∧
    normalize_url toyCodec (normalize_url toyCodec "https://giki.edu.pk/events/") =
      normalize_url toyCodec "https://giki.edu.pk/events/" :=
  ⟨toyCodecOK,
    ⟨⟨"https".toList, "giki.edu.pk".toList, "/events/".toList, [], [], []⟩,
      by rfl, by decide, by decide⟩,
    C7_normalize_idempotent_amended toyCodec toyCodecOK "https://giki.edu.pk/events/"
      (Or.inr ⟨⟨"https".toList, "giki.edu.pk".toList, "/events/".toList, [], [], []⟩,
        by rfl, by decide, by decide⟩)⟩
